import Mathlib

/-!
Verification of the vendor-RAG payment-agent demo.

The development shallowly embeds the two core modules of the repository:

* `src/rag_system.py` (class `VendorRAG`): the lexical retrieval engine and its
  in-memory state (vendor collection, search log).
* `src/agent.py` (class `PaymentAgent`): the guardrail classifier hook, the
  tool-call parser, the tool dispatcher, the transfer action and the bounded
  control loop.

Modelling conventions:

* Python strings are `List Char`; Python floats produced by the scorer are
  modelled as `ℚ` (every score is a finite sum of multiples of 1/2 at small
  magnitude, where binary floating point is exact).
* Stateful methods become functions from an explicit state to (result, state).
* External effects are inputs: `datetime.now()` values are threaded as a `now`
  argument, each `ollama.chat` call is an oracle value of type
  `Except Unit Str` (transport failure or returned message content), and the
  Python standard-library `json.loads` is an abstract decoder parameter
  `Str → Option JObj` (a span that starts with a brace and decodes successfully
  is necessarily a JSON object).
* Fallible Python code returns `Except PyExc`; an uncaught exception is the
  `.error` case.
* Human-readable trace/log strings yielded for the dashboard are omitted; only
  data that any later computation or claim can observe is modelled.
-/

namespace RagPoison

/-- Python strings, modelled as lists of characters. -/
abbrev Str := List Char

/-- Conversion from Lean string literals to the model's string type. -/
def str (s : String) : Str := s.data

/-- Python str.lower() on one character; the core ASCII case mapping, which is
what the repository's data exercises. -/
def lowChar (c : Char) : Char := Char.toLower c

/-- Python str.lower(). -/
def lowerStr (s : Str) : Str := s.map lowChar

/-- Python str.strip() with no arguments: remove leading and trailing
whitespace. -/
def strip (s : Str) : Str :=
  ((s.dropWhile Char.isWhitespace).reverse.dropWhile Char.isWhitespace).reverse

/-- Helper for `splitWs`: scan the input one character at a time, carrying the
current (reversed) word. -/
def splitWsAux : Str → Str → List Str
  | [], acc => if acc.isEmpty then [] else [acc.reverse]
  | c :: rest, acc =>
    if Char.isWhitespace c then
      if acc.isEmpty then splitWsAux rest [] else acc.reverse :: splitWsAux rest []
    else splitWsAux rest (c :: acc)

/-- Python str.split() with no arguments: split on whitespace runs and drop
empty words. -/
def splitWs (s : Str) : List Str := splitWsAux s []

/-- Python substring membership (the `in` operator on strings). -/
def hasSub : Str → Str → Bool
  | pat, [] => pat.isEmpty
  | pat, c :: rest => pat.isPrefixOf (c :: rest) || hasSub pat rest

/-- Helper for `countOcc`: scan the text one character at a time; the counter
argument is the number of characters still to be skipped after a match. -/
def countOccAux (pat : Str) : Str → Nat → Nat
  | [], _ => 0
  | _ :: t, k + 1 => countOccAux pat t k
  | c :: t, 0 =>
    if pat.isPrefixOf (c :: t) then 1 + countOccAux pat t (pat.length - 1)
    else countOccAux pat t 0

/-- Python str.count(sub): number of non-overlapping occurrences, scanning left
to right and skipping the length of the pattern after each match (for the empty
pattern Python returns len(s) + 1). -/
def countOcc (pat s : Str) : Nat :=
  if pat.isEmpty then s.length + 1 else countOccAux pat s 0

/-- Concatenation of k copies of a word. -/
def reps (w : Str) : Nat → Str
  | 0 => []
  | k + 1 => w ++ reps w k

/-- The set of lower-cased query words: Python set(query.lower().split()),
modelled as a deduplicated list (the score is a sum over the set, so the
arbitrary set iteration order is immaterial). -/
def queryWords (query : Str) : List Str := (splitWs (lowerStr query)).dedup

/-- A vendor record as stored in VendorRAG.vendors (src/rag_system.py). A
record with no notes key behaves as notes = "", matching vendor.get('notes','')
in the source. -/
structure Vendor where
  vendor_id : Str
  name : Str
  account_number : Str
  routing_number : Str
  bank_name : Str
  contact_email : Str
  payment_terms : Str
  notes : Str
deriving DecidableEq

/-- The five-rule additive score of VendorRAG.search (src/rag_system.py lines
80-114) for a single vendor, together with the score_breakdown dictionary
(modelled as an association list built in the source's insertion order).
Rule 5 writes count * 0.5 as count / 2. -/
def scoreVendor (query : Str) (v : Vendor) : ℚ × List (Str × ℚ) :=
  let query_lower := lowerStr query
  let query_words := queryWords query
  let searchable_lower := lowerStr (v.name ++ ' ' :: v.notes)
  let name_hit := hasSub query_lower (lowerStr v.name)
  let word_score : ℚ :=
    (query_words.map (fun w => if hasSub w searchable_lower then (1 : ℚ) else 0)).sum
  let phrase_hit := hasSub query_lower searchable_lower
  let notes_lower := lowerStr v.notes
  let question_hit := hasSub ['?'] notes_lower && query_words.any (fun w => hasSub w notes_lower)
  let freq_score : ℚ :=
    (query_words.map (fun w => (countOcc w searchable_lower : ℚ) / 2)).sum
  let score : ℚ :=
    (if name_hit then 10 else 0) + word_score + (if phrase_hit then 5 else 0)
      + (if question_hit then 3 else 0) + freq_score
  let breakdown : List (Str × ℚ) :=
    (if name_hit then [(str ("name_match"), (10 : ℚ))] else [])
      ++ [(str ("word_matches"), word_score)]
      ++ (if phrase_hit then [(str ("phrase_match"), (5 : ℚ))] else [])
      ++ (if question_hit then [(str ("question_format"), (3 : ℚ))] else [])
      ++ [(str ("word_frequency"), freq_score)]
  (score, breakdown)

/-- The raw score of a vendor for a query. -/
def rawScore (query : Str) (v : Vendor) : ℚ := (scoreVendor query v).1

/-- One entry of the results list built by VendorRAG.search. -/
structure ResultEntry where
  vendor_id : Str
  similarity : ℚ
  raw_score : ℚ
  score_breakdown : List (Str × ℚ)
  metadata : Vendor
deriving DecidableEq

/-- The result entry VendorRAG.search appends for a vendor whose score is
positive. -/
def mkEntry (query : Str) (v : Vendor) : ResultEntry :=
  { vendor_id := v.vendor_id
    similarity := min ((scoreVendor query v).1 / 50) 1
    raw_score := (scoreVendor query v).1
    score_breakdown := (scoreVendor query v).2
    metadata := v }

/-- The unsorted results list of VendorRAG.search: vendors scoring above zero,
in collection order. -/
def preResults (query : Str) (vs : List Vendor) : List ResultEntry :=
  vs.filterMap (fun v =>
    if 0 < (scoreVendor query v).1 then some (mkEntry query v) else none)

/-- One entry of the search_details telemetry list. -/
structure ScoreDetail where
  vendor : Str
  score : ℚ
  breakdown : List (Str × ℚ)
deriving DecidableEq

/-- The search_details telemetry list built alongside the results. -/
def detailsFor (query : Str) (vs : List Vendor) : List ScoreDetail :=
  vs.filterMap (fun v =>
    if 0 < (scoreVendor query v).1 then
      some { vendor := v.name, score := (scoreVendor query v).1,
             breakdown := (scoreVendor query v).2 }
    else none)

/-- Insert an element into a descending-sorted list, after all elements whose
key is greater than or equal to its own. -/
def insertDesc {α : Type} (f : α → ℚ) (a : α) : List α → List α
  | [] => [a]
  | b :: l => if f b ≤ f a then a :: b :: l else b :: insertDesc f a l

/-- Stable descending sort by a rational key. This is extensionally the Python
results.sort(key=..., reverse=True) of the source: a stable descending ordering
of a list is unique, and insertion sort with this insertion rule is stable. -/
def sortDescBy {α : Type} (f : α → ℚ) : List α → List α
  | [] => []
  | a :: l => insertDesc f a (sortDescBy f l)

/-- One entry of the in-memory search_log (telemetry). -/
structure SearchLogEntry where
  timestamp : Str
  query : Str
  results_count : Nat
  top_result : Option Str
  all_scores : List ScoreDetail
deriving DecidableEq

/-- The dictionary returned by VendorRAG.search. -/
structure SearchResponse where
  query : Str
  timestamp : Str
  results : List ResultEntry
  search_details : List ScoreDetail
deriving DecidableEq

/-- The mutable state of a VendorRAG instance (db_path, which only matters to
the unmodelled persistence methods, is omitted). -/
structure RagState where
  vendors : List Vendor
  activity_log : List Str
  search_log : List SearchLogEntry
deriving DecidableEq

/-- VendorRAG.search (src/rag_system.py lines 66-149). The two calls to
datetime.now().isoformat() inside one search are modelled by the single
externally supplied value now. -/
def search (st : RagState) (now : Str) (query : Str) (n_results : Nat) :
    SearchResponse × RagState :=
  let pre := preResults query st.vendors
  let details := detailsFor query st.vendors
  let limited := (sortDescBy (fun e => e.similarity) pre).take n_results
  let entry : SearchLogEntry :=
    { timestamp := now, query := query, results_count := limited.length
      top_result := limited.head?.map (fun e => e.metadata.name)
      all_scores := details }
  ({ query := query, timestamp := now, results := limited, search_details := details },
   { st with search_log := st.search_log ++ [entry] })

/-! The agent (src/agent.py). -/

/-- Python exception kinds arising on the agent's code paths: ValueError from
float() on an unparseable string (caught by transfer_funds), TypeError from
float() on a non-numeric non-string value or from keyword unpacking with wrong
argument names, AttributeError from calling .lower() on a non-string,
KeyError from a missing dictionary key. -/
inductive PyExc
  | valueError
  | typeError
  | attributeError
  | keyError
deriving DecidableEq

/-- JSON values as produced by the Python standard-library json.loads. -/
inductive JVal
  | str (s : Str)
  | num (q : ℚ)
  | bool (b : Bool)
  | null
  | arr (l : List JVal)
  | obj (l : List (Str × JVal))

/-- A decoded JSON object: its key/value pairs. json.loads collapses duplicate
keys, so decoder-produced objects have distinct keys. -/
abbrev JObj := List (Str × JVal)

/-- Python dictionary read d[k] / membership k in d, on a decoded object. -/
def getVal (obj : JObj) (k : Str) : Option JVal := List.lookup k obj

/-- Rendering of a JSON value inside a Python f-string. Only the string case
(embedded unquoted) is ever inspected by a claim; the remaining cases are
abstracted to the empty rendering. -/
def renderJ : JVal → Str
  | .str s => s
  | _ => []

/-- A transaction record as appended by PaymentAgent.transfer_funds. -/
structure Transaction where
  timestamp : Str
  vendor_name : Str
  account_number : Str
  routing_number : Str
  amount : ℚ
  status : Str
deriving DecidableEq

/-- A tool result dictionary: a vendor record, a transaction record, or an
error dictionary with its message. -/
inductive ToolResult
  | vendor (v : Vendor)
  | transaction (t : Transaction)
  | error (msg : Str)
deriving DecidableEq

/-- The Python test `"error" in tool_result`. -/
def ToolResult.hasError : ToolResult → Bool
  | .error _ => true
  | _ => false

/-- The mutable state of a PaymentAgent instance: the RAG store, the
transaction ledger and the guardrail flag (the model identifiers, prompt
strings and poison path are constants that no modelled computation reads). -/
structure AgentState where
  rag : RagState
  transactions : List Transaction
  use_guardrails : Bool
deriving DecidableEq

/-- PaymentAgent._check_with_guardrail (src/agent.py lines 109-142): the single
ollama.chat call is the oracle argument, .error () being a raised transport
exception and .ok content the guardrail model's reply. Returns is_safe: an
exception yields False (unsafe); otherwise the reply is stripped, lower-cased,
and unsafe exactly when it starts with "unsafe". Log strings are omitted. -/
def check_with_guardrail (oracle : Except Unit Str) : Bool :=
  match oracle with
  | .error _ => false
  | .ok content =>
    if (str ("unsafe")).isPrefixOf (lowerStr (strip content)) then false else true

/-- Numeric value of a digit run. -/
def digitsToNat (ds : Str) : Nat := ds.foldl (fun a c => a * 10 + (c.toNat - 48)) 0

/-- Python float(str): strip whitespace, optional sign, integer digits with an
optional fractional part (at least one digit in total), optional exponent.
CPython additionally accepts inf/infinity/nan and underscore digit separators,
which are not modelled (no claim and no repository value depends on them).
Returns none where CPython raises ValueError. -/
def pyFloatParse (s : Str) : Option ℚ :=
  let t := strip s
  let sgn : ℚ := match t with
    | '-' :: _ => -1
    | _ => 1
  let t1 : Str := match t with
    | '+' :: r => r
    | '-' :: r => r
    | _ => t
  let ip := t1.takeWhile Char.isDigit
  let r1 := t1.dropWhile Char.isDigit
  let fp : Str := match r1 with
    | '.' :: rr => rr.takeWhile Char.isDigit
    | _ => []
  let r2 : Str := match r1 with
    | '.' :: rr => rr.dropWhile Char.isDigit
    | _ => r1
  if ip.isEmpty && fp.isEmpty then none
  else
    let base : ℚ := sgn * ((digitsToNat ip : ℚ) + (digitsToNat fp : ℚ) / (10 : ℚ) ^ fp.length)
    match r2 with
    | [] => some base
    | e :: r3 =>
      if e = 'e' ∨ e = 'E' then
        let es : Int := match r3 with
          | '-' :: _ => -1
          | _ => 1
        let r4 : Str := match r3 with
          | '+' :: rr => rr
          | '-' :: rr => rr
          | _ => r3
        let ed := r4.takeWhile Char.isDigit
        let r5 := r4.dropWhile Char.isDigit
        if ed.isEmpty ∨ ¬ r5.isEmpty then none
        else some (base * (10 : ℚ) ^ (es * (digitsToNat ed : Int)))
      else none

/-- Python float(x) applied to a JSON-decoded value: numbers and booleans
convert, strings parse or raise ValueError, None, lists and objects raise
TypeError. -/
def pyFloat : JVal → Except PyExc ℚ
  | .num q => .ok q
  | .bool b => .ok (if b then 1 else 0)
  | .str s =>
    match pyFloatParse s with
    | some q => .ok q
    | none => .error .valueError
  | .null => .error .typeError
  | .arr _ => .error .typeError
  | .obj _ => .error .typeError

/-- PaymentAgent.transfer_funds (src/agent.py lines 217-250). The float()
conversion is guarded by except ValueError only, so a TypeError escapes as an
uncaught exception (the .error case). On success exactly one transaction with
status "completed" is appended to the ledger. now models
datetime.now().isoformat(). -/
def transfer_funds (st : AgentState) (now : Str)
    (vendor_name account_number routing_number : Str) (amount : JVal) :
    Except PyExc (ToolResult × AgentState) :=
  match pyFloat amount with
  | .ok numeric_amount =>
    let transaction : Transaction :=
      { timestamp := now
        vendor_name := vendor_name
        account_number := account_number
        routing_number := routing_number
        amount := numeric_amount
        status := str ("completed") }
    .ok (.transaction transaction,
         { st with transactions := st.transactions ++ [transaction] })
  | .error .valueError =>
    .ok (.error (str ("Invalid amount format: ") ++ renderJ amount), st)
  | .error e => .error e

/-- PaymentAgent.search_vendors (src/agent.py lines 199-214): search with
n_results = 1; the first result's metadata on a match, the NotFound error
dictionary otherwise. -/
def search_vendors (st : AgentState) (now : Str) (query : Str) :
    ToolResult × AgentState :=
  match (search st.rag now query 1).1.results with
  | e :: _ => (.vendor e.metadata, { st with rag := (search st.rag now query 1).2 })
  | [] => (.error (str ("No vendor found matching that query.")),
           { st with rag := (search st.rag now query 1).2 })

/-- PaymentAgent._execute_tool_call (src/agent.py lines 166-196). tool_name and
arguments are read from the parsed object first (KeyError when absent, which
_parse_tool_call rules out for loop-produced calls). Keyword unpacking
f(**args) raises TypeError unless args is an object carrying exactly the
callee's parameter names; a non-string query raises AttributeError at
query.lower(). Non-string bank-detail arguments of transfer_funds are carried
through their rendering (Python stores the raw values; only amount, status and
the ledger length are claim-observable). goracle is the ollama.chat outcome of
the guardrail call, when one happens; a non-string tool name falls through the
string comparisons into the unknown-tool branch. -/
def execute_tool_call (st : AgentState) (now : Str) (goracle : Except Unit Str)
    (tool_call : JObj) : Except PyExc (ToolResult × AgentState) :=
  match getVal tool_call (str ("tool_name")), getVal tool_call (str ("arguments")) with
  | some tool_name, some tool_args =>
    match tool_name with
    | .str tn =>
      if tn = str ("search_vendors") then
        match tool_args with
        | .obj [(k, qv)] =>
          if k = str ("query") then
            match qv with
            | .str q =>
              if st.use_guardrails && !(search_vendors st now q).1.hasError then
                if check_with_guardrail goracle then .ok (search_vendors st now q)
                else
                  .ok (.error (str ("SECURITY BLOCK: Retrieved vendor data failed guardrail check. Escalating for manual review.")), (search_vendors st now q).2)
              else .ok (search_vendors st now q)
            | _ => .error .attributeError
          else .error .typeError
        | _ => .error .typeError
      else if tn = str ("transfer_funds") then
        match tool_args with
        | .obj l =>
          match getVal l (str ("vendor_name")), getVal l (str ("account_number")),
              getVal l (str ("routing_number")), getVal l (str ("amount")) with
          | some v1, some v2, some v3, some amt =>
            if l.length = 4 then
              transfer_funds st now (renderJ v1) (renderJ v2) (renderJ v3) amt
            else .error .typeError
          | _, _, _, _ => .error .typeError
        | _ => .error .typeError
      else .ok (.error (str ("Unknown tool: ") ++ tn), st)
    | other => .ok (.error (str ("Unknown tool: ") ++ renderJ other), st)
  | _, _ => .error .keyError

/-- Index of the first occurrence of a character (Python str.find). -/
def findFirst (c : Char) : Str → Option Nat
  | [] => none
  | a :: t => if a = c then some 0 else (findFirst c t).map (· + 1)

/-- Index of the last occurrence of a character (Python str.rfind). -/
def findLast (c : Char) : Str → Option Nat
  | [] => none
  | a :: t =>
    match findLast c t with
    | some j => some (j + 1)
    | none => if a = c then some 0 else none

/-- The opening brace character. -/
def lbrace : Char := '\x7b'

/-- The closing brace character. -/
def rbrace : Char := '\x7d'

/-- PaymentAgent._parse_tool_call (src/agent.py lines 145-163): strip the
response, take the span from the first opening brace to the last closing brace
(requiring the latter strictly after the former), decode exactly that span
with json.loads (the abstract decoder argument; a decode failure is none), and
accept only an object carrying both a tool_name and an arguments key. -/
def parse_tool_call (decode : Str → Option JObj) (content : Str) : Option JObj :=
  match findFirst lbrace (strip content), findLast rbrace (strip content) with
  | some json_start, some json_end =>
    if json_start < json_end then
      match decode (((strip content).drop json_start).take (json_end + 1 - json_start)) with
      | some parsed_json =>
        if (getVal parsed_json (str ("tool_name"))).isSome
            && (getVal parsed_json (str ("arguments"))).isSome then
          some parsed_json
        else none
      | none => none
    else none
  | _, _ => none

/-- The externally supplied events of one loop turn: the primary model's
response (or a raised transport error), the guardrail oracle for a guardrail
call made during that turn, and the clock value for timestamps created during
that turn. -/
structure TurnEnv where
  response : Except Unit Str
  goracle : Except Unit Str
  now : Str

/-- The fixed fallback message yielded when the 5-turn budget is exhausted
(src/agent.py line 323). -/
def fallbackMsg : Str :=
  str ("I") ++ ['\x27'] ++ str ("m sorry, I encountered an issue and couldn")
    ++ ['\x27'] ++ str ("t complete your request.")

/-- The final message on a primary-model transport error. The source
interpolates the exception text and a hint; no claim inspects the content, so
it is abstracted to a fixed marker. -/
def ollamaErrorMsg : Str := str ("OLLAMA ERROR")

/-- The turn recursion of PaymentAgent.process_request (src/agent.py lines
277-324): fuel is the number of loop iterations left, i the index of the next
turn's environment. Each turn consults the primary model; a transport error
ends the loop with the error message as final response; a response that parses
as a tool call is dispatched (an uncaught dispatch exception aborts the
generator, the .error case) and the loop continues whether or not the tool
result was an error; a response that does not parse is the final answer. The
conversation transcript only feeds the abstracted model calls and is not
tracked. -/
def loopAux (decode : Str → Option JObj) (envs : Nat → TurnEnv) :
    Nat → Nat → AgentState → Except PyExc (Str × AgentState)
  | 0, _, st => .ok (fallbackMsg, st)
  | fuel + 1, i, st =>
    match (envs i).response with
    | .error _ => .ok (ollamaErrorMsg, st)
    | .ok content =>
      match parse_tool_call decode content with
      | some tool_call =>
        match execute_tool_call st (envs i).now (envs i).goracle tool_call with
        | .ok out => loopAux decode envs fuel (i + 1) out.2
        | .error e => .error e
      | none => .ok (content, st)

/-- PaymentAgent.process_request (src/agent.py lines 253-324): at most five
turns; the returned string is the last yielded message (the final response). -/
def process_request (decode : Str → Option JObj) (st : AgentState)
    (envs : Nat → TurnEnv) : Except PyExc (Str × AgentState) :=
  loopAux decode envs 5 0 st

/-! Spec-side definitions, written from the claim language rather than the
source, for refinement comparisons. -/

/-- The raw score as the specification describes it: the sum of exactly five
optional additive components over searchable = lower-cased (name, space,
notes): 10 for the lower-cased query being a substring of the lower-cased
name; 1 for each distinct lower-cased query word occurring as a substring of
searchable; 5 for the full lower-cased query being a substring of searchable;
3 when notes contains a question-mark character and at least one query word
occurs in the lower-cased notes; and 1/2 per non-overlapping occurrence of
each query word in searchable. -/
def specRawScore (query : Str) (v : Vendor) : ℚ :=
  let searchable := lowerStr (v.name ++ ' ' :: v.notes)
  let ws := queryWords query
  (if hasSub (lowerStr query) (lowerStr v.name) = true then 10 else 0)
    + ((ws.filter (fun w => hasSub w searchable)).length : ℚ)
    + (if hasSub (lowerStr query) searchable = true then 5 else 0)
    + (if '?' ∈ v.notes ∧ ∃ w ∈ ws, hasSub w (lowerStr v.notes) = true then 3 else 0)
    + (ws.map (fun w => (countOcc w searchable : ℚ) / 2)).sum

/-- The sort key the specification prescribes for ranking:
normalizedScore = min(rawScore / 50, 1). -/
def specKey (e : ResultEntry) : ℚ := min (e.raw_score / 50) 1

/-! Concrete inputs used by witnesses and counterexamples. -/

/-- A vendor literal with fixed filler banking fields. -/
def mkV (id nm notes : Str) : Vendor :=
  { vendor_id := id, name := nm,
    account_number := str ("1"), routing_number := str ("2"),
    bank_name := str ("b"), contact_email := str ("e"), payment_terms := str ("p"),
    notes := notes }

/-- Saturation counterexample, first vendor: raw score 51 for query "a". -/
def satA : Vendor := mkV (str ("A")) (str ("a")) (List.replicate 69 'a')

/-- Saturation counterexample, second vendor: raw score 55 for query "a". -/
def satB : Vendor := mkV (str ("B")) (str ("a")) (List.replicate 77 'a')

/-- A store holding the two saturation vendors. -/
def satStore : RagState :=
  { vendors := [satA, satB], activity_log := [], search_log := [] }

/-- An agent state with an empty store, empty ledger and guardrails off. -/
def agEmpty : AgentState :=
  { rag := { vendors := [], activity_log := [], search_log := [] },
    transactions := [], use_guardrails := false }

/-- Whether a dispatcher outcome is a normal return (no uncaught exception). -/
def execOk : Except PyExc (ToolResult × AgentState) → Bool
  | .ok _ => true
  | .error _ => false

/-- Whether dispatching a parsed tool call returns normally. Normal return
depends only on the call itself (its tool name and argument shapes), never on
the agent state, the clock or the guardrail verdict, so it is probed on the
empty agent. -/
def callOk (tc : JObj) : Bool := execOk (execute_tool_call agEmpty [] (.ok []) tc)

/-- Whether a parsed tool call does not name the transfer tool. -/
def noTransfer (tc : JObj) : Bool :=
  match getVal tc (str ("tool_name")) with
  | some (.str tn) => if tn = str ("transfer_funds") then false else true
  | _ => true

/-- Whether one loop turn delivers a model response that parses as a tool call
whose dispatch returns normally. -/
def turnOk (decode : Str → Option JObj) (env : TurnEnv) : Bool :=
  match env.response with
  | .error _ => false
  | .ok content =>
    match parse_tool_call decode content with
    | some tc => callOk tc
    | none => false

/-- Whether one loop turn avoids naming the transfer tool. -/
def turnNoTransfer (decode : Str → Option JObj) (env : TurnEnv) : Bool :=
  match env.response with
  | .error _ => true
  | .ok content =>
    match parse_tool_call decode content with
    | some tc => noTransfer tc
    | none => true

/-- A tool-call object naming an unknown tool. -/
def tcNoop : JObj :=
  [(str ("tool_name"), .str (str ("noop"))), (str ("arguments"), .obj [])]

/-- The noop tool call as model-response text. -/
def tcNoopStr : Str :=
  ['\x7b'] ++ str ("\"tool_name\": \"noop\", \"arguments\": ") ++ ['\x7b', '\x7d', '\x7d']

/-- A decoder defined on exactly the noop span. -/
def decNoop : Str → Option JObj := fun s => if s = tcNoopStr then some tcNoop else none

/-- A turn environment that always answers with the noop tool call. -/
def envNoop : TurnEnv :=
  { response := .ok tcNoopStr, goracle := .ok (str ("SAFE")), now := str ("T") }

/-- A transfer tool call whose amount is None. -/
def tcTransferNull : JObj :=
  [(str ("tool_name"), .str (str ("transfer_funds"))),
   (str ("arguments"), .obj
     [(str ("vendor_name"), .str (str ("V"))),
      (str ("account_number"), .str (str ("9"))),
      (str ("routing_number"), .str (str ("8"))),
      (str ("amount"), .null)])]

/-- The null-amount transfer call as model-response text. -/
def tcTransferNullStr : Str :=
  ['\x7b'] ++ str ("\"tool_name\": \"transfer_funds\", \"arguments\": ")
    ++ ['\x7b'] ++ str ("\"vendor_name\": \"V\", \"account_number\": \"9\", ")
    ++ str ("\"routing_number\": \"8\", \"amount\": null") ++ ['\x7d', '\x7d']

/-- A decoder defined on exactly the null-amount transfer span. -/
def decTransferNull : Str → Option JObj :=
  fun s => if s = tcTransferNullStr then some tcTransferNull else none

/-- A turn environment that always requests the null-amount transfer. -/
def envTransferNull : TurnEnv :=
  { response := .ok tcTransferNullStr, goracle := .ok (str ("SAFE")), now := str ("T") }

/-- Witness vendor: name "pay", empty notes. -/
def vPay : Vendor := mkV (str ("V")) (str ("pay")) []

/-- Witness competitor that vPay ties with (same score for query "pay"). -/
def cbPay : Vendor := mkV (str ("CB")) (str ("pay x")) []

/-- Witness competitor that vPay strictly beats for query "pay". -/
def caPay : Vendor := mkV (str ("CA")) (str ("pa")) (str ("pay"))

/-- A one-vendor store whose only raw score for query "pay" is below the
normalization cap. -/
def capStore : RagState :=
  { vendors := [vPay], activity_log := [], search_log := [] }

/-- The witness vendor vPay with one occurrence of the query word appended to
its notes. -/
def vPayBoost : Vendor := { vPay with notes := vPay.notes ++ str ("pay") }

/-! Basic lemmas about the string primitives. -/

/-- Characterization of the boolean prefix test. -/
theorem isPrefixOf_ex (p : Str) : ∀ s : Str, p.isPrefixOf s = true ↔ ∃ u, s = p ++ u := by
  induction p with
  | nil =>
    intro s
    simp [List.isPrefixOf]
  | cons c pt ih =>
    intro s
    cases s with
    | nil =>
      simp [List.isPrefixOf]
    | cons a t =>
      simp only [List.isPrefixOf, Bool.and_eq_true, beq_iff_eq, ih]
      constructor
      · rintro ⟨rfl, u, rfl⟩
        exact ⟨u, rfl⟩
      · rintro ⟨u, hu⟩
        cases hu
        exact ⟨rfl, u, rfl⟩

/-- A list is a prefix of itself. -/
theorem isPrefixOf_self (p : Str) : p.isPrefixOf p = true :=
  (isPrefixOf_ex p p).2 ⟨[], by simp⟩

/-- A prefix of s stays a prefix after appending on the right. -/
theorem isPrefixOf_append_of {p s : Str} (u : Str) (h : p.isPrefixOf s = true) :
    p.isPrefixOf (s ++ u) = true := by
  rcases (isPrefixOf_ex p s).1 h with ⟨v, rfl⟩
  exact (isPrefixOf_ex p _).2 ⟨v ++ u, by simp⟩

/-- A prefix is no longer than the whole. -/
theorem length_le_of_isPrefixOf {p s : Str} (h : p.isPrefixOf s = true) :
    p.length ≤ s.length := by
  rcases (isPrefixOf_ex p s).1 h with ⟨v, rfl⟩
  simp

/-- A substring of s remains a substring after appending on the right. -/
theorem hasSub_append_of {pat s : Str} (u : Str) (h : hasSub pat s = true) :
    hasSub pat (s ++ u) = true := by
  induction s with
  | nil =>
    cases u with
    | nil => simpa using h
    | cons c t =>
      simp only [hasSub, List.isEmpty_iff] at h
      subst h
      simp [hasSub, List.isPrefixOf]
  | cons a t ih =>
    simp only [hasSub, Bool.or_eq_true] at h ⊢
    rcases h with h | h
    · exact Or.inl (isPrefixOf_append_of u h)
    · exact Or.inr (ih h)

/-- The scanner finds nothing in a text shorter than the pattern. -/
theorem countOccAux_eq_zero_of_short {pat : Str} :
    ∀ {s : Str} (k : Nat), s.length < pat.length → countOccAux pat s k = 0 := by
  intro s
  induction s with
  | nil => intro k _; rfl
  | cons c t ih =>
    intro k h
    match k with
    | k' + 1 =>
      exact ih k' (by simp at h ⊢; omega)
    | 0 =>
      have hp : pat.isPrefixOf (c :: t) = false := by
        cases hb : pat.isPrefixOf (c :: t) with
        | false => rfl
        | true => exact absurd (length_le_of_isPrefixOf hb) (by omega)
      simp only [countOccAux, hp]
      exact ih 0 (by simp at h ⊢; omega)

/-- A prefix of an appended list that fits inside the left part is a prefix of
the left part. -/
theorem isPrefixOf_of_append_of_le {p s u : Str} (h : p.isPrefixOf (s ++ u) = true)
    (hl : p.length ≤ s.length) : p.isPrefixOf s = true := by
  rcases (isPrefixOf_ex p _).1 h with ⟨v, hv⟩
  have h1 : (s ++ u).take s.length = s := List.take_left s u
  have h2 := congrArg (List.take s.length) hv
  rw [h1, List.take_append_eq_append_take, List.take_of_length_le hl] at h2
  exact (isPrefixOf_ex p s).2 ⟨_, h2⟩

/-- Unfolding equation for the scanner at skip zero. -/
theorem countOccAux_zero (pat : Str) (c : Char) (t : Str) :
    countOccAux pat (c :: t) 0 =
      if pat.isPrefixOf (c :: t) = true then 1 + countOccAux pat t (pat.length - 1)
      else countOccAux pat t 0 := rfl

/-- Appending text on the right cannot lower the scanner's count. -/
theorem countOccAux_le_append (pat u : Str) :
    ∀ (s : Str) (k : Nat), countOccAux pat s k ≤ countOccAux pat (s ++ u) k := by
  intro s
  induction s with
  | nil =>
    intro k
    simp [countOccAux]
  | cons c t ih =>
    intro k
    match k with
    | k' + 1 =>
      exact ih k'
    | 0 =>
      have hstep : (c :: t) ++ u = c :: (t ++ u) := rfl
      rw [countOccAux_zero, hstep, countOccAux_zero]
      by_cases hp : pat.isPrefixOf (c :: t) = true
      · have hp' : pat.isPrefixOf (c :: (t ++ u)) = true := by
          have := isPrefixOf_append_of u hp
          rwa [hstep] at this
        rw [if_pos hp, if_pos hp']
        exact Nat.add_le_add_left (ih _) 1
      · rw [if_neg hp]
        by_cases hp' : pat.isPrefixOf (c :: (t ++ u)) = true
        · rw [if_pos hp']
          have hlong : (c :: t).length < pat.length := by
            by_contra hlen
            push_neg at hlen
            exact hp (isPrefixOf_of_append_of_le (p := pat) (s := c :: t) (u := u)
              (by rw [hstep]; exact hp') hlen)
          have h0 : countOccAux pat t 0 = 0 :=
            countOccAux_eq_zero_of_short 0 (by simp only [List.length_cons] at hlong; omega)
          omega
        · rw [if_neg hp']
          exact ih 0

/-- Appending one copy of the (nonempty) pattern itself adds at least one to
the scanner's count, for any skip value not exceeding the text length. -/
theorem countOccAux_append_self {pat : Str} (hne : pat ≠ []) :
    ∀ (s : Str) (k : Nat), k ≤ s.length →
      countOccAux pat s k + 1 ≤ countOccAux pat (s ++ pat) k := by
  intro s
  induction s with
  | nil =>
    intro k hk
    have hk0 : k = 0 := by simpa using hk
    subst hk0
    match pat, hne with
    | p :: pt, _ =>
      rw [List.nil_append, countOccAux_zero, if_pos (isPrefixOf_self _)]
      simp [countOccAux]
  | cons c t ih =>
    intro k hk
    match k with
    | k' + 1 =>
      exact ih k' (by simp only [List.length_cons] at hk; omega)
    | 0 =>
      have hstep : (c :: t) ++ pat = c :: (t ++ pat) := rfl
      rw [countOccAux_zero, hstep, countOccAux_zero]
      by_cases hp : pat.isPrefixOf (c :: t) = true
      · have hp' : pat.isPrefixOf (c :: (t ++ pat)) = true := by
          have := isPrefixOf_append_of pat hp
          rwa [hstep] at this
        rw [if_pos hp, if_pos hp']
        have hlen : pat.length ≤ t.length + 1 := by
          have := length_le_of_isPrefixOf hp
          simpa using this
        have := ih (pat.length - 1) (by omega)
        omega
      · rw [if_neg hp]
        by_cases hp' : pat.isPrefixOf (c :: (t ++ pat)) = true
        · rw [if_pos hp']
          have hlong : (c :: t).length < pat.length := by
            by_contra hlen
            push_neg at hlen
            exact hp (isPrefixOf_of_append_of_le (p := pat) (s := c :: t) (u := pat)
              (by rw [hstep]; exact hp') hlen)
          have h0 : countOccAux pat t 0 = 0 :=
            countOccAux_eq_zero_of_short 0 (by simp only [List.length_cons] at hlong; omega)
          omega
        · rw [if_neg hp']
          exact ih 0 (Nat.zero_le _)

/-- Python str.count never decreases when text is appended on the right. -/
theorem countOcc_le_append (pat s u : Str) : countOcc pat s ≤ countOcc pat (s ++ u) := by
  unfold countOcc
  by_cases h : pat.isEmpty
  · rw [if_pos h, if_pos h]
    simp
  · rw [if_neg h, if_neg h]
    exact countOccAux_le_append pat u s 0

/-- Python str.count grows strictly when a copy of the nonempty pattern is
appended on the right. -/
theorem countOcc_append_self {pat : Str} (s : Str) (hne : pat ≠ []) :
    countOcc pat s + 1 ≤ countOcc pat (s ++ pat) := by
  unfold countOcc
  have h : pat.isEmpty = false := by
    cases pat with
    | nil => exact absurd rfl hne
    | cons a l => rfl
  rw [h]
  simp only [Bool.false_eq_true, if_false]
  exact countOccAux_append_self hne s 0 (Nat.zero_le _)

/-- Python str.count grows by at least k when k copies of the nonempty pattern
are appended on the right. -/
theorem countOcc_append_reps {pat : Str} (hne : pat ≠ []) :
    ∀ (k : Nat) (s : Str), countOcc pat s + k ≤ countOcc pat (s ++ reps pat k) := by
  intro k
  induction k with
  | zero => intro s; simp [reps]
  | succ k ih =>
    intro s
    have hsplit : s ++ reps pat (k + 1) = (s ++ pat) ++ reps pat k := by
      show s ++ (pat ++ reps pat k) = (s ++ pat) ++ reps pat k
      rw [List.append_assoc]
    rw [hsplit]
    have h1 := countOcc_append_self s hne
    have h2 := ih (s ++ pat)
    omega

/-- Every word produced by the split scanner is nonempty. -/
theorem splitWsAux_ne_nil : ∀ (s acc : Str), ∀ w ∈ splitWsAux s acc, w ≠ [] := by
  intro s
  induction s with
  | nil =>
    intro acc w hw
    by_cases h : acc.isEmpty
    · simp [splitWsAux, h] at hw
    · simp only [splitWsAux, h, Bool.false_eq_true, if_false, List.mem_singleton] at hw
      subst hw
      simp only [ne_eq, List.reverse_eq_nil_iff]
      intro hacc
      rw [hacc] at h
      exact h rfl
  | cons c t ih =>
    intro acc w hw
    by_cases hc : Char.isWhitespace c
    · by_cases h : acc.isEmpty
      · rw [show splitWsAux (c :: t) acc = splitWsAux t [] from by simp [splitWsAux, hc, h]] at hw
        exact ih [] w hw
      · rw [show splitWsAux (c :: t) acc = acc.reverse :: splitWsAux t [] from by
          simp [splitWsAux, hc, h]] at hw
        rcases List.mem_cons.1 hw with rfl | hw
        · simp only [ne_eq, List.reverse_eq_nil_iff]
          intro hacc
          rw [hacc] at h
          exact h rfl
        · exact ih [] w hw
    · rw [show splitWsAux (c :: t) acc = splitWsAux t (c :: acc) from by
        simp [splitWsAux, hc]] at hw
      exact ih (c :: acc) w hw

/-- Every word of Python str.split() is nonempty. -/
theorem splitWs_ne_nil {q : Str} : ∀ w ∈ splitWs q, w ≠ [] :=
  splitWsAux_ne_nil q []

/-- Every query word is nonempty. -/
theorem queryWords_ne_nil {query w : Str} (h : w ∈ queryWords query) : w ≠ [] :=
  splitWs_ne_nil w (List.mem_dedup.1 h)

/-! Lemmas about the stable descending sort. -/

/-- Inserting places the new element in front of a (possibly empty) block of
elements with strictly greater keys. -/
theorem insertDesc_decomp {α : Type} (f : α → ℚ) (a : α) :
    ∀ l : List α, ∃ l₁ l₂, insertDesc f a l = l₁ ++ a :: l₂ ∧ l = l₁ ++ l₂ ∧
      ∀ b ∈ l₁, f a < f b := by
  intro l
  induction l with
  | nil => exact ⟨[], [], rfl, rfl, by simp⟩
  | cons b t ih =>
    by_cases h : f b ≤ f a
    · exact ⟨[], b :: t, by simp [insertDesc, h], rfl, by simp⟩
    · rcases ih with ⟨l₁, l₂, h1, h2, h3⟩
      refine ⟨b :: l₁, l₂, ?_, ?_, ?_⟩
      · simp [insertDesc, h, h1]
      · simp [h2]
      · intro x hx
        rcases List.mem_cons.1 hx with rfl | hx
        · exact not_le.1 h
        · exact h3 x hx

/-- Membership in an insertion. -/
theorem mem_insertDesc {α : Type} (f : α → ℚ) (a x : α) (l : List α) :
    x ∈ insertDesc f a l ↔ x = a ∨ x ∈ l := by
  rcases insertDesc_decomp f a l with ⟨l₁, l₂, h1, h2, _⟩
  rw [h1, h2]
  simp only [List.mem_append, List.mem_cons]
  tauto

/-- Membership is preserved by the sort. -/
theorem mem_sortDescBy {α : Type} (f : α → ℚ) (x : α) :
    ∀ l : List α, x ∈ sortDescBy f l ↔ x ∈ l := by
  intro l
  induction l with
  | nil => simp [sortDescBy]
  | cons a t ih =>
    show x ∈ insertDesc f a (sortDescBy f t) ↔ _
    rw [mem_insertDesc, ih]
    simp

/-- Insertion preserves sublists of the original list. -/
theorem sublist_insertDesc {α : Type} (f : α → ℚ) (a : α) (l s : List α)
    (h : s.Sublist l) : s.Sublist (insertDesc f a l) := by
  rcases insertDesc_decomp f a l with ⟨l₁, l₂, h1, h2, _⟩
  rw [h1]
  rw [h2] at h
  exact h.trans (List.Sublist.append_left (List.sublist_cons_self a l₂) l₁)

/-- Insertion preserves descending sortedness. -/
theorem pairwise_insertDesc {α : Type} (f : α → ℚ) (a : α) :
    ∀ l : List α, l.Pairwise (fun x y => f y ≤ f x) →
      (insertDesc f a l).Pairwise (fun x y => f y ≤ f x) := by
  intro l
  induction l with
  | nil =>
    intro _
    simp [insertDesc]
  | cons b t ih =>
    intro h
    rcases List.pairwise_cons.1 h with ⟨hb, ht⟩
    by_cases hba : f b ≤ f a
    · rw [show insertDesc f a (b :: t) = a :: b :: t from by simp [insertDesc, hba]]
      refine List.pairwise_cons.2 ⟨?_, h⟩
      intro y hy
      rcases List.mem_cons.1 hy with rfl | hy
      · exact hba
      · exact (hb y hy).trans hba
    · rw [show insertDesc f a (b :: t) = b :: insertDesc f a t from by simp [insertDesc, hba]]
      refine List.pairwise_cons.2 ⟨?_, ih ht⟩
      intro y hy
      rcases (mem_insertDesc f a y t).1 hy with rfl | hy
      · exact le_of_lt (not_le.1 hba)
      · exact hb y hy

/-- The sort output is sorted descending by the key. -/
theorem pairwise_sortDescBy {α : Type} (f : α → ℚ) :
    ∀ l : List α, (sortDescBy f l).Pairwise (fun x y => f y ≤ f x) := by
  intro l
  induction l with
  | nil => simp [sortDescBy]
  | cons a t ih => exact pairwise_insertDesc f a _ ih

/-- The inserted element lands in front of every element whose key is at most
its own. -/
theorem insertDesc_before {α : Type} (f : α → ℚ) (a y : α) (l : List α)
    (hy : y ∈ l) (hya : f y ≤ f a) : [a, y].Sublist (insertDesc f a l) := by
  rcases insertDesc_decomp f a l with ⟨l₁, l₂, h1, h2, h3⟩
  rw [h1]
  have hy2 : y ∈ l₂ := by
    rw [h2] at hy
    rcases List.mem_append.1 hy with h | h
    · exact absurd hya (not_le.2 (h3 y h))
    · exact h
  exact (List.cons_sublist_cons.2 (List.singleton_sublist.2 hy2)).trans
    (List.sublist_append_right l₁ (a :: l₂))

/-- The inserted element lands behind every element of a sorted list whose key
strictly exceeds its own. -/
theorem insertDesc_after {α : Type} (f : α → ℚ) (a x : α) :
    ∀ l : List α, l.Pairwise (fun p q => f q ≤ f p) → x ∈ l → f a < f x →
      [x, a].Sublist (insertDesc f a l) := by
  intro l
  induction l with
  | nil =>
    intro _ hx _
    cases hx
  | cons b t ih =>
    intro hs hx hax
    rcases List.pairwise_cons.1 hs with ⟨hb, ht⟩
    by_cases hba : f b ≤ f a
    · exfalso
      rcases List.mem_cons.1 hx with rfl | hxt
      · exact absurd hba (not_le.2 hax)
      · exact absurd ((hb x hxt).trans hba) (not_le.2 hax)
    · rw [show insertDesc f a (b :: t) = b :: insertDesc f a t from by simp [insertDesc, hba]]
      rcases List.mem_cons.1 hx with rfl | hxt
      · exact List.cons_sublist_cons.2
          (List.singleton_sublist.2 ((mem_insertDesc f a a t).2 (Or.inl rfl)))
      · exact (ih ht hxt hax).trans (List.sublist_cons_self b _)

/-- Relative order in the stable descending sort: x is placed in front of y
whenever x came first with a key at least y's, or x's key strictly exceeds
y's. -/
theorem sortDescBy_order {α : Type} (f : α → ℚ) :
    ∀ (l : List α) (x y : α),
      (([x, y].Sublist l ∧ f y ≤ f x) ∨ (x ∈ l ∧ y ∈ l ∧ f y < f x)) →
      [x, y].Sublist (sortDescBy f l) := by
  intro l
  induction l with
  | nil =>
    intro x y h
    rcases h with ⟨hs, _⟩ | ⟨hx, _, _⟩
    · simp at hs
    · cases hx
  | cons a t ih =>
    intro x y h
    show [x, y].Sublist (insertDesc f a (sortDescBy f t))
    rcases h with ⟨hs, hk⟩ | ⟨hx, hy, hk⟩
    · have hsplit : ([x, y].Sublist t) ∨ (x = a ∧ [y].Sublist t) := by
        cases hs with
        | cons _ h' => exact Or.inl h'
        | cons₂ _ h' => exact Or.inr ⟨rfl, h'⟩
      rcases hsplit with h' | ⟨rfl, h'⟩
      · exact sublist_insertDesc f a _ _ (ih x y (Or.inl ⟨h', hk⟩))
      · exact insertDesc_before f x y _
          ((mem_sortDescBy f y t).2 (List.singleton_sublist.1 h')) hk
    · rcases List.mem_cons.1 hx with rfl | hxt
      · rcases List.mem_cons.1 hy with rfl | hyt
        · exact absurd hk (lt_irrefl _)
        · exact insertDesc_before f x y _ ((mem_sortDescBy f y t).2 hyt) (le_of_lt hk)
      · rcases List.mem_cons.1 hy with rfl | hyt
        · exact insertDesc_after f y x _ (pairwise_sortDescBy f t)
            ((mem_sortDescBy f x t).2 hxt) hk
        · exact sublist_insertDesc f a _ _ (ih x y (Or.inr ⟨hxt, hyt, hk⟩))

/-- Two keys that agree on all comparisons with the pivot produce the same
insertion. -/
theorem insertDesc_congr {α : Type} (f g : α → ℚ) (a : α) :
    ∀ l : List α, (∀ b ∈ l, (f b ≤ f a ↔ g b ≤ g a)) →
      insertDesc f a l = insertDesc g a l := by
  intro l
  induction l with
  | nil => intro _; rfl
  | cons b t ih =>
    intro h
    have hb := h b (List.mem_cons_self b t)
    by_cases hf : f b ≤ f a
    · simp [insertDesc, hf, hb.1 hf]
    · have hg : ¬ g b ≤ g a := fun hgba => hf (hb.2 hgba)
      simp only [insertDesc, if_neg hf, if_neg hg, List.cons.injEq, true_and]
      exact ih (fun x hx => h x (List.mem_cons_of_mem b hx))

/-- Two keys that agree on all pairwise comparisons sort a list identically. -/
theorem sortDescBy_congr {α : Type} (f g : α → ℚ) :
    ∀ l : List α, (∀ a ∈ l, ∀ b ∈ l, (f b ≤ f a ↔ g b ≤ g a)) →
      sortDescBy f l = sortDescBy g l := by
  intro l
  induction l with
  | nil => intro _; rfl
  | cons a t ih =>
    intro h
    show insertDesc f a (sortDescBy f t) = insertDesc g a (sortDescBy g t)
    rw [ih (fun x hx y hy =>
      h x (List.mem_cons_of_mem a hx) y (List.mem_cons_of_mem a hy))]
    exact insertDesc_congr f g a _ (fun b hb =>
      h a (List.mem_cons_self a t) b
        (List.mem_cons_of_mem a ((mem_sortDescBy g b t).1 hb)))

/-! Lemmas about the scorer. -/

/-- The unfolded form of the raw score: the sum of the five scoring rules. -/
theorem rawScore_eq (query : Str) (v : Vendor) :
    rawScore query v =
      (if hasSub (lowerStr query) (lowerStr v.name) = true then 10 else 0)
        + ((queryWords query).map (fun w =>
            if hasSub w (lowerStr (v.name ++ ' ' :: v.notes)) = true then (1 : ℚ) else 0)).sum
        + (if hasSub (lowerStr query) (lowerStr (v.name ++ ' ' :: v.notes)) = true then 5 else 0)
        + (if (hasSub ['?'] (lowerStr v.notes)
              && (queryWords query).any (fun w => hasSub w (lowerStr v.notes))) = true then 3 else 0)
        + ((queryWords query).map (fun w =>
            (countOcc w (lowerStr (v.name ++ ' ' :: v.notes)) : ℚ) / 2)).sum := rfl

/-- Substring membership of a single character is list membership. -/
theorem hasSub_singleton (c : Char) : ∀ l : Str, hasSub [c] l = true ↔ c ∈ l := by
  intro l
  induction l with
  | nil => simp [hasSub]
  | cons a t ih =>
    simp only [hasSub, Bool.or_eq_true, ih, List.mem_cons]
    constructor
    · rintro (h | h)
      · simp [List.isPrefixOf] at h
        exact Or.inl h
      · exact Or.inr h
    · rintro (rfl | h)
      · exact Or.inl (by simp [List.isPrefixOf])
      · exact Or.inr h

/-- Char.ofNat at a valid scalar value converts back to the same Nat. -/
theorem toNat_ofNat_valid {n : Nat} (h : n.isValidChar) : (Char.ofNat n).toNat = n := by
  simp [Char.ofNat, h, Char.ofNatAux, Char.toNat, UInt32.toNat, UInt32.ofNatCore]

/-- Lower-casing maps a character to the question mark only if it is the
question mark. -/
theorem lowChar_eq_qmark (c : Char) : lowChar c = '?' ↔ c = '?' := by
  unfold lowChar Char.toLower
  by_cases h : c.toNat ≥ 65 ∧ c.toNat ≤ 90
  · rw [if_pos h]
    constructor
    · intro habs
      exfalso
      have hv : (c.toNat + 32).isValidChar := by
        left
        omega
      have := congrArg Char.toNat habs
      rw [toNat_ofNat_valid hv] at this
      have : ('?').toNat = 63 := rfl
      omega
    · intro habs
      exfalso
      rw [habs] at h
      have : ('?').toNat = 63 := rfl
      omega
  · rw [if_neg h]

/-- The question mark is in the lower-cased text exactly when it is in the
text. -/
theorem qmark_mem_lowerStr (s : Str) : '?' ∈ lowerStr s ↔ '?' ∈ s := by
  unfold lowerStr
  rw [List.mem_map]
  constructor
  · rintro ⟨c, hc, hl⟩
    rwa [(lowChar_eq_qmark c).1 hl] at hc
  · intro h
    exact ⟨'?', h, (lowChar_eq_qmark '?').2 rfl⟩

/-- A sum of 0/1 indicator values counts the satisfying elements. -/
theorem sum_ite_one {α : Type} (p : α → Bool) :
    ∀ l : List α, (l.map (fun w => if p w = true then (1 : ℚ) else 0)).sum
      = ((l.filter p).length : ℚ) := by
  intro l
  induction l with
  | nil => simp
  | cons a t ih =>
    by_cases h : p a
    · simp [h, ih]
      ring
    · simp [h, ih]

/-- An indicator term is monotone under implication of its condition. -/
theorem ite_mono_bool {a b : Bool} (x : ℚ) (hx : 0 ≤ x) (h : a = true → b = true) :
    (if a = true then x else 0) ≤ (if b = true then x else 0) := by
  cases a with
  | false =>
    simp only [Bool.false_eq_true, if_false]
    split
    · exact hx
    · exact le_refl 0
  | true => rw [if_pos rfl, if_pos (h rfl)]

/-- Indicator terms are nonnegative. -/
theorem ite_nonneg_bool (a : Bool) (x : ℚ) (hx : 0 ≤ x) :
    0 ≤ (if a = true then x else 0) := by
  split
  · exact hx
  · exact le_refl 0

/-- The word-match sum is nonnegative. -/
theorem word_sum_nonneg (ws : List Str) (s : Str) :
    0 ≤ (ws.map (fun w => if hasSub w s = true then (1 : ℚ) else 0)).sum := by
  apply List.sum_nonneg
  intro x hx
  rcases List.mem_map.1 hx with ⟨w, _, rfl⟩
  exact ite_nonneg_bool _ 1 (by norm_num)

/-- The frequency sum is nonnegative. -/
theorem freq_sum_nonneg (ws : List Str) (s : Str) :
    0 ≤ (ws.map (fun w => (countOcc w s : ℚ) / 2)).sum := by
  apply List.sum_nonneg
  intro x hx
  rcases List.mem_map.1 hx with ⟨w, _, rfl⟩
  positivity

/-- Raw scores are nonnegative. -/
theorem rawScore_nonneg (query : Str) (v : Vendor) : 0 ≤ rawScore query v := by
  rw [rawScore_eq]
  have h1 := ite_nonneg_bool (hasSub (lowerStr query) (lowerStr v.name)) 10 (by norm_num)
  have h2 := word_sum_nonneg (queryWords query) (lowerStr (v.name ++ ' ' :: v.notes))
  have h3 := ite_nonneg_bool (hasSub (lowerStr query) (lowerStr (v.name ++ ' ' :: v.notes))) 5
    (by norm_num)
  have h4 := ite_nonneg_bool (hasSub ['?'] (lowerStr v.notes)
    && (queryWords query).any (fun w => hasSub w (lowerStr v.notes))) 3 (by norm_num)
  have h5 := freq_sum_nonneg (queryWords query) (lowerStr (v.name ++ ' ' :: v.notes))
  linarith

/-- Characterization of membership in the unsorted results list. -/
theorem mem_preResults {query : Str} {vs : List Vendor} {r : ResultEntry}
    (h : r ∈ preResults query vs) :
    ∃ v : Vendor, v ∈ vs ∧ r = mkEntry query v ∧ 0 < rawScore query v := by
  rcases List.mem_filterMap.1 h with ⟨v, hv, hr⟩
  by_cases hpos : 0 < (scoreVendor query v).1
  · rw [if_pos hpos, Option.some_inj] at hr
    exact ⟨v, hv, hr.symm, hpos⟩
  · rw [if_neg hpos] at hr
    cases hr

/-- Introduction rule for membership in the unsorted results list. -/
theorem mem_preResults_intro {query : Str} {vs : List Vendor} {v : Vendor}
    (hv : v ∈ vs) (hpos : 0 < rawScore query v) : mkEntry query v ∈ preResults query vs :=
  List.mem_filterMap.2 ⟨v, hv, by
    rw [if_pos (show 0 < (scoreVendor query v).1 from hpos)]⟩

/-- Entries of the returned results come from the unsorted results list. -/
theorem mem_search_results {st : RagState} {now query : Str} {n : Nat} {r : ResultEntry}
    (h : r ∈ (search st now query n).1.results) : r ∈ preResults query st.vendors := by
  unfold search at h
  simp only at h
  exact (mem_sortDescBy _ r _).1 (List.take_subset n _ h)

/-- Appending text whose lower-cased form is k ≥ 1 copies of a query word to a
vendor's notes strictly increases its raw score: the first four rules cannot
decrease, and the frequency rule gains at least k/2. -/
theorem rawScore_lt_append_reps {query : Str} (v : Vendor) {w t : Str} {k : Nat}
    (hw : w ∈ queryWords query) (hk : 1 ≤ k) (ht : lowerStr t = reps w k) :
    rawScore query v < rawScore query { v with notes := v.notes ++ t } := by
  have hwne : w ≠ [] := queryWords_ne_nil hw
  have hname : ({ v with notes := v.notes ++ t } : Vendor).name = v.name := rfl
  have hnotes : ({ v with notes := v.notes ++ t } : Vendor).notes = v.notes ++ t := rfl
  have hsearch : lowerStr (v.name ++ ' ' :: (v.notes ++ t))
      = lowerStr (v.name ++ ' ' :: v.notes) ++ reps w k := by
    have hassoc : v.name ++ ' ' :: (v.notes ++ t) = (v.name ++ ' ' :: v.notes) ++ t := by
      rw [← List.cons_append, List.append_assoc]
    rw [hassoc]
    unfold lowerStr
    rw [List.map_append]
    unfold lowerStr at ht
    rw [ht]
  have hnl : lowerStr (v.notes ++ t) = lowerStr v.notes ++ reps w k := by
    unfold lowerStr
    rw [List.map_append]
    unfold lowerStr at ht
    rw [ht]
  rw [rawScore_eq, rawScore_eq, hname, hnotes, hsearch, hnl]
  have h2 : ((queryWords query).map (fun u =>
        if hasSub u (lowerStr (v.name ++ ' ' :: v.notes)) = true then (1 : ℚ) else 0)).sum
      ≤ ((queryWords query).map (fun u =>
        if hasSub u (lowerStr (v.name ++ ' ' :: v.notes) ++ reps w k) = true
        then (1 : ℚ) else 0)).sum := by
    apply List.sum_le_sum
    intro u _
    exact ite_mono_bool 1 (by norm_num) (hasSub_append_of _)
  have h3 : (if hasSub (lowerStr query) (lowerStr (v.name ++ ' ' :: v.notes)) = true
        then (5 : ℚ) else 0)
      ≤ (if hasSub (lowerStr query) (lowerStr (v.name ++ ' ' :: v.notes) ++ reps w k) = true
        then (5 : ℚ) else 0) :=
    ite_mono_bool 5 (by norm_num) (hasSub_append_of _)
  have h4 : (if (hasSub ['?'] (lowerStr v.notes)
          && (queryWords query).any (fun u => hasSub u (lowerStr v.notes))) = true
        then (3 : ℚ) else 0)
      ≤ (if (hasSub ['?'] (lowerStr v.notes ++ reps w k)
          && (queryWords query).any (fun u => hasSub u (lowerStr v.notes ++ reps w k))) = true
        then (3 : ℚ) else 0) := by
    apply ite_mono_bool 3 (by norm_num)
    intro hcond
    rw [Bool.and_eq_true] at hcond ⊢
    rcases hcond with ⟨hq, hany⟩
    constructor
    · exact hasSub_append_of _ hq
    · rcases List.any_eq_true.1 hany with ⟨u, hu, hus⟩
      exact List.any_eq_true.2 ⟨u, hu, hasSub_append_of _ hus⟩
  have h5 : ((queryWords query).map (fun u =>
        (countOcc u (lowerStr (v.name ++ ' ' :: v.notes)) : ℚ) / 2)).sum
      < ((queryWords query).map (fun u =>
        (countOcc u (lowerStr (v.name ++ ' ' :: v.notes) ++ reps w k) : ℚ) / 2)).sum := by
    apply List.sum_lt_sum
    · intro u _
      have hc := countOcc_le_append u (lowerStr (v.name ++ ' ' :: v.notes)) (reps w k)
      have hcq : (countOcc u (lowerStr (v.name ++ ' ' :: v.notes)) : ℚ)
          ≤ (countOcc u (lowerStr (v.name ++ ' ' :: v.notes) ++ reps w k) : ℚ) := by
        exact_mod_cast hc
      linarith
    · refine ⟨w, hw, ?_⟩
      have hc := countOcc_append_reps hwne k (lowerStr (v.name ++ ' ' :: v.notes))
      have hcq : (countOcc w (lowerStr (v.name ++ ' ' :: v.notes)) : ℚ) + (k : ℚ)
          ≤ (countOcc w (lowerStr (v.name ++ ' ' :: v.notes) ++ reps w k) : ℚ) := by
        exact_mod_cast hc
      have hkq : (1 : ℚ) ≤ (k : ℚ) := by exact_mod_cast hk
      linarith
  linarith

/-! Dispatcher lemmas shared by the ledger and loop claims. -/

/-- The transfer action either returns the InvalidAmount error leaving the
ledger unchanged, or appends exactly one completed transaction; a normal
return is never anything else. -/
theorem transfer_funds_ledger {st : AgentState} {now vn an rn : Str} {amt : JVal}
    {res : ToolResult} {st' : AgentState}
    (h : transfer_funds st now vn an rn amt = .ok (res, st')) :
    (st'.transactions = st.transactions ∧ ∀ tx : Transaction, res ≠ .transaction tx)
    ∨ (∃ tx : Transaction, res = .transaction tx
        ∧ st'.transactions = st.transactions ++ [tx] ∧ tx.status = str ("completed")) := by
  unfold transfer_funds at h
  cases hp : pyFloat amt with
  | ok q =>
    rw [hp] at h
    simp only [Except.ok.injEq, Prod.mk.injEq] at h
    right
    refine ⟨_, h.1.symm, ?_, rfl⟩
    rw [← h.2]
  | error e =>
    rw [hp] at h
    cases e with
    | valueError =>
      simp only [Except.ok.injEq, Prod.mk.injEq] at h
      left
      refine ⟨by rw [← h.2], ?_⟩
      intro tx
      rw [← h.1]
      intro habs
      cases habs
    | typeError => cases h
    | attributeError => cases h
    | keyError => cases h

/-- The search tool never touches the ledger and never produces a transaction
result. -/
theorem search_vendors_ledger (st : AgentState) (now q : Str) :
    (search_vendors st now q).2.transactions = st.transactions
    ∧ ∀ tx : Transaction, (search_vendors st now q).1 ≠ .transaction tx := by
  unfold search_vendors
  cases (search st.rag now q 1).1.results with
  | nil => exact ⟨rfl, fun tx habs => by cases habs⟩
  | cons e l => exact ⟨rfl, fun tx habs => by cases habs⟩

/-- Case analysis of a normal dispatcher return: either the ledger is
unchanged and the result is not a transaction, or the call named
transfer_funds and exactly one completed transaction was appended. -/
theorem execute_ledger {st : AgentState} {now : Str} {go : Except Unit Str} {tc : JObj}
    {res : ToolResult} {st' : AgentState}
    (h : execute_tool_call st now go tc = .ok (res, st')) :
    (st'.transactions = st.transactions ∧ ∀ tx : Transaction, res ≠ .transaction tx)
    ∨ (∃ tx : Transaction, res = .transaction tx
        ∧ st'.transactions = st.transactions ++ [tx] ∧ tx.status = str ("completed")
        ∧ getVal tc (str ("tool_name")) = some (.str (str ("transfer_funds")))) := by
  unfold execute_tool_call at h
  split at h
  case _ tool_name tool_args heq1 heq2 =>
    cases tool_name with
    | str tn =>
      simp only [] at h
      by_cases hsearch : tn = str ("search_vendors")
      · rw [if_pos hsearch] at h
        cases tool_args with
        | obj l =>
          cases l with
          | nil => exact Except.noConfusion h
          | cons p ls =>
            cases p with
            | mk k qv =>
              cases ls with
              | cons p2 ls2 => exact Except.noConfusion h
              | nil =>
                simp only [] at h
                by_cases hk : k = str ("query")
                · rw [if_pos hk] at h
                  cases qv with
                  | str q =>
                    simp only [] at h
                    split at h
                    · split at h
                      · have hx : search_vendors st now q = (res, st') := Except.ok.inj h
                        have hst : st' = (search_vendors st now q).2 := by rw [hx]
                        have hres : res = (search_vendors st now q).1 := by rw [hx]
                        subst hst
                        left
                        exact ⟨(search_vendors_ledger st now q).1,
                          by rw [hres]; exact (search_vendors_ledger st now q).2⟩
                      · have hx := Except.ok.inj h
                        cases hx
                        left
                        exact ⟨(search_vendors_ledger st now q).1,
                          fun tx habs => by cases habs⟩
                    · have hx : search_vendors st now q = (res, st') := Except.ok.inj h
                      have hst : st' = (search_vendors st now q).2 := by rw [hx]
                      have hres : res = (search_vendors st now q).1 := by rw [hx]
                      subst hst
                      left
                      exact ⟨(search_vendors_ledger st now q).1,
                        by rw [hres]; exact (search_vendors_ledger st now q).2⟩
                  | num q => exact Except.noConfusion h
                  | bool b => exact Except.noConfusion h
                  | null => exact Except.noConfusion h
                  | arr l2 => exact Except.noConfusion h
                  | obj l2 => exact Except.noConfusion h
                · rw [if_neg hk] at h
                  exact Except.noConfusion h
        | str s2 => exact Except.noConfusion h
        | num q2 => exact Except.noConfusion h
        | bool b2 => exact Except.noConfusion h
        | null => exact Except.noConfusion h
        | arr l2 => exact Except.noConfusion h
      · rw [if_neg hsearch] at h
        by_cases htr : tn = str ("transfer_funds")
        · rw [if_pos htr] at h
          cases tool_args with
          | obj l =>
            simp only [] at h
            rcases hv1 : getVal l (str ("vendor_name")) with _ | v1
    <;> rw [hv1] at h
            · exact Except.noConfusion h
            rcases hv2 : getVal l (str ("account_number")) with _ | v2
    <;> rw [hv2] at h
            · exact Except.noConfusion h
            rcases hv3 : getVal l (str ("routing_number")) with _ | v3
    <;> rw [hv3] at h
            · exact Except.noConfusion h
            rcases hv4 : getVal l (str ("amount")) with _ | amt
    <;> rw [hv4] at h
            · exact Except.noConfusion h
            simp only [] at h
            by_cases hlen : l.length = 4
            · rw [if_pos hlen] at h
              rcases transfer_funds_ledger h with ⟨h1, h2⟩ | ⟨tx, h1, h2, h3⟩
              · exact Or.inl ⟨h1, h2⟩
              · exact Or.inr ⟨tx, h1, h2, h3, by rw [heq1, htr]⟩
            · rw [if_neg hlen] at h
              exact Except.noConfusion h
          | str s2 => exact Except.noConfusion h
          | num q2 => exact Except.noConfusion h
          | bool b2 => exact Except.noConfusion h
          | null => exact Except.noConfusion h
          | arr l2 => exact Except.noConfusion h
        · rw [if_neg htr] at h
          have hx := Except.ok.inj h
          cases hx
          exact Or.inl ⟨rfl, fun tx habs => by cases habs⟩
    | num q2 =>
      have hx := Except.ok.inj h
      cases hx
      exact Or.inl ⟨rfl, fun tx habs => by cases habs⟩
    | bool b2 =>
      have hx := Except.ok.inj h
      cases hx
      exact Or.inl ⟨rfl, fun tx habs => by cases habs⟩
    | null =>
      have hx := Except.ok.inj h
      cases hx
      exact Or.inl ⟨rfl, fun tx habs => by cases habs⟩
    | arr l2 =>
      have hx := Except.ok.inj h
      cases hx
      exact Or.inl ⟨rfl, fun tx habs => by cases habs⟩
    | obj l2 =>
      have hx := Except.ok.inj h
      cases hx
      exact Or.inl ⟨rfl, fun tx habs => by cases habs⟩
  case _ =>
    cases h

/-- Whether a dispatch returns normally depends only on the tool call, not on
the agent state, clock or guardrail oracle: it equals the probe on the empty
agent. -/
theorem execOk_eq_callOk (st : AgentState) (now : Str) (go : Except Unit Str) (tc : JObj) :
    execOk (execute_tool_call st now go tc) = callOk tc := by
  unfold callOk
  unfold execute_tool_call
  cases heq1 : getVal tc (str ("tool_name")) with
  | none => rfl
  | some tool_name =>
    cases heq2 : getVal tc (str ("arguments")) with
    | none => rfl
    | some tool_args =>
      cases tool_name with
      | str tn =>
        simp only []
        by_cases hsearch : tn = str ("search_vendors")
        · rw [if_pos hsearch, if_pos hsearch]
          cases tool_args with
          | obj l =>
            cases l with
            | nil => rfl
            | cons p ls =>
              cases p with
              | mk k qv =>
                cases ls with
                | cons p2 ls2 => rfl
                | nil =>
                  simp only []
                  by_cases hk : k = str ("query")
                  · rw [if_pos hk, if_pos hk]
                    cases qv with
                    | str q =>
                      simp only []
                      split
                      · split
                        · rfl
                        · rfl
                      · rfl
                    | num q2 => rfl
                    | bool b2 => rfl
                    | null => rfl
                    | arr l2 => rfl
                    | obj l2 => rfl
                  · rw [if_neg hk, if_neg hk]
          | str s2 => rfl
          | num q2 => rfl
          | bool b2 => rfl
          | null => rfl
          | arr l2 => rfl
        · rw [if_neg hsearch, if_neg hsearch]
          by_cases htr : tn = str ("transfer_funds")
          · rw [if_pos htr, if_pos htr]
            cases tool_args with
            | obj l =>
              simp only []
              cases hv1 : getVal l (str ("vendor_name")) with
              | none => rfl
              | some v1 =>
                cases hv2 : getVal l (str ("account_number")) with
                | none => rfl
                | some v2 =>
                  cases hv3 : getVal l (str ("routing_number")) with
                  | none => rfl
                  | some v3 =>
                    cases hv4 : getVal l (str ("amount")) with
                    | none => rfl
                    | some amt =>
                      simp only []
                      by_cases hlen : l.length = 4
                      · rw [if_pos hlen, if_pos hlen]
                        unfold transfer_funds
                        cases hp : pyFloat amt with
                        | ok q => rfl
                        | error e =>
                          cases e with
                          | valueError => rfl
                          | typeError => rfl
                          | attributeError => rfl
                          | keyError => rfl
                      · rw [if_neg hlen, if_neg hlen]
            | str s2 => rfl
            | num q2 => rfl
            | bool b2 => rfl
            | null => rfl
            | arr l2 => rfl
          · rw [if_neg htr, if_neg htr]
            rfl
      | num q2 => rfl
      | bool b2 => rfl
      | null => rfl
      | arr l2 => rfl
      | obj l2 => rfl

/-- A normally-returning dispatch exists whenever the probe says so. -/
theorem callOk_dispatch {tc : JObj} (hok : callOk tc = true)
    (st : AgentState) (now : Str) (go : Except Unit Str) :
    ∃ out : ToolResult × AgentState, execute_tool_call st now go tc = .ok out := by
  have h := execOk_eq_callOk st now go tc
  rw [hok] at h
  cases hout : execute_tool_call st now go tc with
  | ok out => exact ⟨out, rfl⟩
  | error e =>
    rw [hout] at h
    cases h

/-- A dispatch of a call that does not name the transfer tool preserves the
ledger. -/
theorem noTransfer_preserves {st : AgentState} {now : Str} {go : Except Unit Str}
    {tc : JObj} {res : ToolResult} {st' : AgentState}
    (hnt : noTransfer tc = true)
    (h : execute_tool_call st now go tc = .ok (res, st')) :
    st'.transactions = st.transactions := by
  rcases execute_ledger h with ⟨h1, _⟩ | ⟨tx, _, _, _, hname⟩
  · exact h1
  · exfalso
    unfold noTransfer at hnt
    rw [hname] at hnt
    simp at hnt

/-- If every remaining turn parses as a normally-dispatching tool call, the
loop runs out of fuel and returns the fallback message; if additionally no
turn names the transfer tool, the ledger is unchanged. -/
theorem loopAux_fallback (decode : Str → Option JObj) (envs : Nat → TurnEnv) :
    ∀ (fuel i : Nat) (st : AgentState),
      (∀ j, j < fuel → turnOk decode (envs (i + j)) = true) →
      ∃ st' : AgentState,
        loopAux decode envs fuel i st = .ok (fallbackMsg, st')
        ∧ ((∀ j, j < fuel → turnNoTransfer decode (envs (i + j)) = true) →
            st'.transactions = st.transactions) := by
  intro fuel
  induction fuel with
  | zero =>
    intro i st _
    exact ⟨st, rfl, fun _ => rfl⟩
  | succ fuel ih =>
    intro i st hok
    have h0 := hok 0 (Nat.succ_pos fuel)
    rw [show i + 0 = i from rfl] at h0
    unfold turnOk at h0
    cases hresp : (envs i).response with
    | error e =>
      rw [hresp] at h0
      cases h0
    | ok content =>
      rw [hresp] at h0
      simp only [] at h0
      cases hparse : parse_tool_call decode content with
      | none =>
        rw [hparse] at h0
        cases h0
      | some tcall =>
        rw [hparse] at h0
        rcases callOk_dispatch h0 st (envs i).now (envs i).goracle with ⟨out, hout⟩
        have hstep : loopAux decode envs (fuel + 1) i st
            = loopAux decode envs fuel (i + 1) out.2 := by
          conv_lhs => rw [loopAux]
          rw [hresp]
          simp only []
          rw [hparse]
          simp only []
          rw [hout]
        rcases ih (i + 1) out.2 (fun j hj => by
            have hh := hok (j + 1) (by omega)
            rwa [show i + (j + 1) = i + 1 + j from by omega] at hh)
          with ⟨st', hrun, htrans⟩
        refine ⟨st', by rw [hstep, hrun], ?_⟩
        intro hnt
        have hnt0 := hnt 0 (Nat.succ_pos fuel)
        rw [show i + 0 = i from rfl] at hnt0
        unfold turnNoTransfer at hnt0
        rw [hresp] at hnt0
        simp only [] at hnt0
        rw [hparse] at hnt0
        have hpres : out.2.transactions = st.transactions := by
          rcases hout2 : out with ⟨res0, st0⟩
          rw [hout2] at hout
          exact noTransfer_preserves hnt0 hout
        rw [htrans (fun j hj => by
          have hh := hnt (j + 1) (by omega)
          rwa [show i + (j + 1) = i + 1 + j from by omega] at hh), hpres]

/-! Claim theorems. -/

/-- C1: for every query and vendor collection, search computes each vendor's
raw score as the sum of exactly the five optional additive components the
specification lists (name substring +10, +1 per distinct query word in
searchable, +5 for the full query phrase in searchable, +3 when notes has a
question mark and some query word occurs in the lower-cased notes, and +1/2
per non-overlapping occurrence of each query word in searchable), and every
returned result entry carries that raw score and is strictly positive, so
vendors with total score at most 0 are excluded from the results. -/
theorem C1_score_components_and_exclusion :
    (∀ (query : Str) (v : Vendor), rawScore query v = specRawScore query v)
    ∧ ∀ (st : RagState) (now query : Str) (n : Nat) (r : ResultEntry),
        r ∈ (search st now query n).1.results →
          r.raw_score = specRawScore query r.metadata ∧ 0 < r.raw_score := by
  have hmain : ∀ (query : Str) (v : Vendor), rawScore query v = specRawScore query v := by
    intro query v
    rw [rawScore_eq]
    unfold specRawScore
    have h4 : (if (hasSub ['?'] (lowerStr v.notes)
          && (queryWords query).any (fun w => hasSub w (lowerStr v.notes))) = true
        then (3 : ℚ) else 0)
        = (if '?' ∈ v.notes ∧ ∃ w ∈ queryWords query, hasSub w (lowerStr v.notes) = true
          then (3 : ℚ) else 0) := by
      apply if_congr _ rfl rfl
      rw [Bool.and_eq_true, hasSub_singleton, qmark_mem_lowerStr, List.any_eq_true]
    rw [sum_ite_one, h4]
  refine ⟨hmain, ?_⟩
  intro st now query n r hr
  rcases mem_preResults (mem_search_results hr) with ⟨v, _, rfl, hpos⟩
  exact ⟨hmain query v, hpos⟩

/-- Witness for C1 at a concrete store and query. -/
theorem C1_score_components_and_exclusion_witness :
    (mkEntry (str ("pay")) vPay).raw_score = specRawScore (str ("pay")) vPay
      ∧ 0 < (mkEntry (str ("pay")) vPay).raw_score :=
  C1_score_components_and_exclusion.2 capStore (str ("T")) (str ("pay")) 1
    (mkEntry (str ("pay")) vPay)
    (by
      have hq : queryWords (str ("pay")) = [str ("pay")] := by decide
      have hc : countOcc (str ("pay")) (lowerStr (str ("pay") ++ [' '])) = 1 := by decide
      have hsc : (scoreVendor (str ("pay")) vPay).1 = 33 / 2 := by
        simp +decide [scoreVendor, hq, vPay, mkV, hc]
        norm_num
      simp [search, preResults, capStore, hsc, sortDescBy, insertDesc])

/-- C2 counterexample: with the saturating normalization, two records can both
reach normalizedScore 1, and then stable ordering by original position wins:
satB's raw score (55) strictly exceeds satA's (51), yet search with limit 1
returns satA, because min(51/50, 1) = min(55/50, 1) = 1. -/
theorem C2_saturation_counterexample :
    rawScore (str ("a")) satA < rawScore (str ("a")) satB
    ∧ (search satStore (str ("T")) (str ("a")) 1).1.results.map (fun e => e.vendor_id)
        = [str ("A")] := by
  have hq : queryWords (str ("a")) = [['a']] := by decide
  have h2 : countOcc ['a'] (lowerStr (satA.name ++ ' ' :: satA.notes)) = 70 := by decide
  have h3 : countOcc ['a'] (lowerStr (satB.name ++ ' ' :: satB.notes)) = 78 := by decide
  have hA : (scoreVendor (str ("a")) satA).1 = 51 := by
    simp +decide [scoreVendor, hq, h2]
    norm_num
  have hB : (scoreVendor (str ("a")) satB).1 = 55 := by
    simp +decide [scoreVendor, hq, h3]
    norm_num
  constructor
  · rw [rawScore, rawScore, hA, hB]
    norm_num
  · simp only [search, preResults, List.filterMap]
    norm_num [hA, hB, satStore, mkEntry, sortDescBy, insertDesc]
    decide

/-- C2 amended: sorting descending by normalizedScore = min(rawScore/50, 1)
with stable ties coincides with sorting descending by rawScore with stable
ties whenever every vendor's raw score is at most the saturation cap 50; under
that bound a record with strictly greater raw score is ranked above, and with
limit 1 it is the record returned. -/
theorem C2_sort_matches_raw_below_cap (st : RagState) (now query : Str) (n : Nat)
    (hcap : ∀ v ∈ st.vendors, rawScore query v ≤ 50) :
    (search st now query n).1.results
      = (sortDescBy (fun e => e.raw_score) (preResults query st.vendors)).take n := by
  unfold search
  simp only
  congr 1
  apply sortDescBy_congr
  intro a ha b hb
  rcases mem_preResults ha with ⟨va, hva, rfl, _⟩
  rcases mem_preResults hb with ⟨vb, hvb, rfl, _⟩
  show min (rawScore query vb / 50) 1 ≤ min (rawScore query va / 50) 1
    ↔ rawScore query vb ≤ rawScore query va
  have ha50 : rawScore query va ≤ 50 := hcap va hva
  have hb50 : rawScore query vb ≤ 50 := hcap vb hvb
  rw [min_eq_left ((div_le_one (by norm_num : (0 : ℚ) < 50)).2 ha50),
    min_eq_left ((div_le_one (by norm_num : (0 : ℚ) < 50)).2 hb50)]
  exact div_le_div_iff_of_pos_right (by norm_num)

/-- Witness for the amended C2 at a concrete capped store. -/
theorem C2_sort_matches_raw_below_cap_witness :
    (search capStore (str ("T")) (str ("pay")) 1).1.results
      = (sortDescBy (fun e => e.raw_score) (preResults (str ("pay")) capStore.vendors)).take 1 :=
  C2_sort_matches_raw_below_cap capStore (str ("T")) (str ("pay")) 1
    (by
      intro v hv
      have : v = vPay := by
        simpa [capStore] using hv
      subst this
      have hq : queryWords (str ("pay")) = [str ("pay")] := by decide
      have hc : countOcc (str ("pay")) (lowerStr (str ("pay") ++ [' '])) = 1 := by decide
      show rawScore (str ("pay")) vPay ≤ 50
      rw [rawScore]
      have hsc : (scoreVendor (str ("pay")) vPay).1 = 33 / 2 := by
        simp +decide [scoreVendor, hq, vPay, mkV, hc]
        norm_num
      rw [hsc]
      norm_num)

/-- C4: the guardrail classify step returns an unsafe verdict exactly when the
classification call raised a transport error or the trimmed reply begins,
case-insensitively, with "unsafe"; every other reply is treated as safe. -/
theorem C4_guardrail_unsafe_iff (oracle : Except Unit Str) :
    check_with_guardrail oracle = false
      ↔ ((∃ e : Unit, oracle = .error e)
          ∨ ∃ content : Str, oracle = .ok content
              ∧ (str ("unsafe")).isPrefixOf (lowerStr (strip content)) = true) := by
  cases oracle with
  | error e => simp [check_with_guardrail]
  | ok content =>
    show (if (str ("unsafe")).isPrefixOf (lowerStr (strip content)) = true
        then false else true) = false ↔ _
    by_cases h : (str ("unsafe")).isPrefixOf (lowerStr (strip content)) = true
    · rw [if_pos h]
      refine iff_of_true rfl (Or.inr ⟨content, rfl, h⟩)
    · rw [if_neg h]
      refine iff_of_false (by simp) ?_
      rintro (⟨e, he⟩ | ⟨c, hc, hpre⟩)
      · cases he
      · rw [Except.ok.injEq] at hc
        rw [← hc] at hpre
        exact h hpre

/-- C5 counterexample: the amount "-50" parses successfully, so the transfer
completes and appends a transaction carrying a negative amount; the code never
checks the sign. -/
theorem C5_negative_amount_counterexample :
    ∃ tx : Transaction,
      transfer_funds agEmpty (str ("T")) (str ("V")) (str ("9")) (str ("8"))
          (.str (str ("-50")))
        = .ok (.transaction tx, { agEmpty with transactions := [tx] })
      ∧ tx.amount < 0 ∧ tx.status = str ("completed") := by
  have hp : pyFloatParse (str ("-50")) = some (-50) := by
    rw [show pyFloatParse (str ("-50"))
        = some ((-1 : ℚ) * ((digitsToNat (str ("50")) : ℚ)
            + (digitsToNat ([] : Str) : ℚ) / (10 : ℚ) ^ (0 : Nat))) from rfl]
    norm_num [show digitsToNat (str ("50")) = 50 from by decide,
      show digitsToNat ([] : Str) = 0 from rfl]
  refine ⟨{ timestamp := str ("T"), vendor_name := str ("V"),
            account_number := str ("9"), routing_number := str ("8"),
            amount := -50, status := str ("completed") }, ?_, by norm_num, rfl⟩
  simp [transfer_funds, pyFloat, hp, agEmpty]

/-- C5 amended: transfer_funds converts a string amount with float(); when the
conversion fails it returns the InvalidAmount error result and appends nothing
to the ledger, and when it succeeds it appends exactly one Transaction
carrying the parsed amount (of either sign; non-negativity is not checked)
with status "completed"; a malformed amount is the only string amount on which
a transfer fails. -/
theorem C5_transfer_amount_parse (st : AgentState) (now vn an rn : Str) :
    (∀ s : Str, pyFloatParse s = none →
        transfer_funds st now vn an rn (.str s)
          = .ok (.error (str ("Invalid amount format: ") ++ s), st))
    ∧ (∀ (s : Str) (x : ℚ), pyFloatParse s = some x →
        ∃ tx : Transaction,
          transfer_funds st now vn an rn (.str s)
            = .ok (.transaction tx, { st with transactions := st.transactions ++ [tx] })
          ∧ tx.amount = x ∧ tx.status = str ("completed")) := by
  constructor
  · intro s hs
    simp [transfer_funds, pyFloat, hs, renderJ]
  · intro s x hs
    refine ⟨{ timestamp := now, vendor_name := vn, account_number := an,
              routing_number := rn, amount := x, status := str ("completed") }, ?_, rfl, rfl⟩
    simp [transfer_funds, pyFloat, hs]

/-- Witness for the amended C5 at two concrete amounts. -/
theorem C5_transfer_amount_parse_witness :
    (transfer_funds agEmpty (str ("T")) (str ("V")) (str ("9")) (str ("8"))
        (.str (str ("abc")))
      = .ok (.error (str ("Invalid amount format: ") ++ str ("abc")), agEmpty))
    ∧ ∃ tx : Transaction,
        transfer_funds agEmpty (str ("T")) (str ("V")) (str ("9")) (str ("8"))
            (.str (str ("12")))
          = .ok (.transaction tx, { agEmpty with transactions := agEmpty.transactions ++ [tx] })
        ∧ tx.amount = 12 ∧ tx.status = str ("completed") :=
  ⟨(C5_transfer_amount_parse agEmpty (str ("T")) (str ("V")) (str ("9")) (str ("8"))).1
      (str ("abc")) (by decide),
   (C5_transfer_amount_parse agEmpty (str ("T")) (str ("V")) (str ("9")) (str ("8"))).2
      (str ("12")) 12 (by
        rw [show pyFloatParse (str ("12"))
            = some ((1 : ℚ) * ((digitsToNat (str ("12")) : ℚ)
                + (digitsToNat ([] : Str) : ℚ) / (10 : ℚ) ^ (0 : Nat))) from rfl]
        norm_num [show digitsToNat (str ("12")) = 12 from by decide,
          show digitsToNat ([] : Str) = 0 from rfl])⟩

/-- C10: every search leaves the vendor collection and the activity log
unchanged and appends exactly one entry to the in-memory search log, recording
the query, the supplied timestamp, the (truncated) result count, the top
result's vendor name when one exists, and the full score details; this holds
also when the query matches zero vendors. -/
theorem C10_search_frame (st : RagState) (now query : Str) (n : Nat) :
    (search st now query n).2.vendors = st.vendors
    ∧ (search st now query n).2.activity_log = st.activity_log
    ∧ (search st now query n).2.search_log
        = st.search_log
          ++ [{ timestamp := now, query := query,
                results_count := (search st now query n).1.results.length,
                top_result :=
                  (search st now query n).1.results.head?.map (fun e => e.metadata.name),
                all_scores := (search st now query n).1.search_details }]
    ∧ (search st now query n).2.search_log.length = st.search_log.length + 1 := by
  refine ⟨rfl, rfl, rfl, ?_⟩
  show (st.search_log ++ [_]).length = st.search_log.length + 1
  simp

/-- C3: the transaction ledger is modified only by a successful transfer_funds
dispatch, which appends exactly one Transaction with status "completed"; every
other normal dispatcher outcome (search results including NotFound and
SecurityBlock, an unknown tool name, an invalid transfer amount) leaves the
ledger unchanged. -/
theorem C3_ledger_only_successful_transfer
    (st : AgentState) (now : Str) (go : Except Unit Str) (tc : JObj)
    (res : ToolResult) (st' : AgentState)
    (h : execute_tool_call st now go tc = .ok (res, st')) :
    (st'.transactions = st.transactions
      ∨ ∃ tx : Transaction, res = .transaction tx
          ∧ st'.transactions = st.transactions ++ [tx]
          ∧ tx.status = str ("completed")
          ∧ getVal tc (str ("tool_name")) = some (.str (str ("transfer_funds"))))
    ∧ ∀ tx : Transaction, res = .transaction tx →
        st'.transactions = st.transactions ++ [tx] ∧ tx.status = str ("completed") := by
  rcases execute_ledger h with ⟨h1, h2⟩ | ⟨tx, h1, h2, h3, h4⟩
  · exact ⟨Or.inl h1, fun tx htx => absurd htx (h2 tx)⟩
  · refine ⟨Or.inr ⟨tx, h1, h2, h3, h4⟩, ?_⟩
    intro tx2 htx2
    rw [h1] at htx2
    cases htx2
    exact ⟨h2, h3⟩

/-- Witness for C3 at a concrete unknown-tool dispatch. -/
theorem C3_ledger_only_successful_transfer_witness :
    (agEmpty.transactions = agEmpty.transactions
      ∨ ∃ tx : Transaction, ToolResult.error (str ("Unknown tool: ") ++ str ("noop"))
            = .transaction tx
          ∧ agEmpty.transactions = agEmpty.transactions ++ [tx]
          ∧ tx.status = str ("completed")
          ∧ getVal tcNoop (str ("tool_name")) = some (.str (str ("transfer_funds"))))
    ∧ ∀ tx : Transaction,
        ToolResult.error (str ("Unknown tool: ") ++ str ("noop")) = .transaction tx →
          agEmpty.transactions = agEmpty.transactions ++ [tx]
          ∧ tx.status = str ("completed") :=
  C3_ledger_only_successful_transfer agEmpty (str ("T")) (.ok (str ("SAFE"))) tcNoop
    (.error (str ("Unknown tool: ") ++ str ("noop"))) agEmpty rfl

/-- C8: whenever every one of the five turns delivers a model response that
parses as a tool call whose dispatch returns normally (so five turns elapse
without a final answer), the control loop terminates with the fixed fallback
message rather than raising an error; and if no turn names the transfer tool,
the transaction ledger is unchanged (zero transactions from zero). -/
theorem C8_turn_budget_fallback (decode : Str → Option JObj) (st : AgentState)
    (envs : Nat → TurnEnv)
    (hok : ∀ j, j < 5 → turnOk decode (envs j) = true) :
    ∃ st' : AgentState,
      process_request decode st envs = .ok (fallbackMsg, st')
      ∧ ((∀ j, j < 5 → turnNoTransfer decode (envs j) = true) →
          st'.transactions = st.transactions) := by
  rcases loopAux_fallback decode envs 5 0 st
      (fun j hj => by simpa using hok j hj) with ⟨st', h1, h2⟩
  exact ⟨st', h1, fun hnt => h2 (fun j hj => by simpa using hnt j hj)⟩

/-- Witness for C8: five unknown-tool turns end in the fallback message with
the ledger untouched. -/
theorem C8_turn_budget_fallback_witness :
    ∃ st' : AgentState,
      process_request decNoop agEmpty (fun _ => envNoop) = .ok (fallbackMsg, st')
      ∧ st'.transactions = agEmpty.transactions := by
  rcases C8_turn_budget_fallback decNoop agEmpty (fun _ => envNoop)
      (fun j hj => by show turnOk decNoop envNoop = true; decide) with ⟨st', h1, h2⟩
  exact ⟨st', h1, h2 (fun j hj => by show turnNoTransfer decNoop envNoop = true; decide)⟩

/-- C9: the float() conversion in transfer_funds guards against ValueError
alone; a None or list amount raises TypeError, which escapes the dispatcher
and aborts the control loop instead of being returned as an InvalidAmount tool
result, while a string or numeric amount always yields a normal tool result. -/
theorem C9_typeerror_escapes (st : AgentState) (now vn an rn : Str)
    (go : Except Unit Str) :
    transfer_funds st now vn an rn .null = .error .typeError
    ∧ transfer_funds st now vn an rn (.arr []) = .error .typeError
    ∧ execute_tool_call st now go tcTransferNull = .error .typeError
    ∧ process_request decTransferNull st (fun _ => envTransferNull) = .error .typeError
    ∧ (∀ s : Str, ∃ out, transfer_funds st now vn an rn (.str s) = .ok out)
    ∧ ∀ q : ℚ, ∃ out, transfer_funds st now vn an rn (.num q) = .ok out := by
  refine ⟨rfl, rfl, rfl, rfl, ?_, ?_⟩
  · intro s
    unfold transfer_funds pyFloat
    simp only []
    cases pyFloatParse s with
    | none => exact ⟨_, rfl⟩
    | some x => exact ⟨_, rfl⟩
  · intro q
    exact ⟨_, rfl⟩

/-- Decomposition of the unsorted results around a positive-scoring vendor. -/
theorem preResults_append_middle {query : Str} (A B : List Vendor) {v : Vendor}
    (hpos : 0 < rawScore query v) :
    preResults query (A ++ v :: B)
      = preResults query A ++ mkEntry query v :: preResults query B := by
  unfold preResults
  rw [List.filterMap_append]
  congr 1
  rw [List.filterMap_cons, if_pos (show 0 < (scoreVendor query v).1 from hpos)]

/-- The normalized similarity key is monotone in the raw score. -/
theorem simKey_mono {x y : ℚ} (h : x ≤ y) : min (x / 50) 1 ≤ min (y / 50) 1 :=
  min_le_min ((div_le_div_iff_of_pos_right (by norm_num : (0 : ℚ) < 50)).2 h) (le_refl 1)

/-- C6: appending occurrences of a query word to a vendor's notes (text whose
lower-cased form is k ≥ 1 copies of the word) strictly increases that vendor's
raw score, and cannot lower its position relative to any unchanged competitor
in the same collection: a competitor it preceded with at least the competitor's
similarity stays behind it in the sorted results, and a competitor it outranked
on similarity from a later position also stays behind it. -/
theorem C6_note_spam_strictly_increases_score (query : Str) (A B : List Vendor)
    (v : Vendor) (w t : Str) (k : Nat) (vb : Vendor)
    (hvb : vb = { v with notes := v.notes ++ t })
    (hw : w ∈ queryWords query) (hk : 1 ≤ k) (ht : lowerStr t = reps w k) :
    rawScore query v < rawScore query vb
    ∧ (∀ c : Vendor, c ∈ B → 0 < rawScore query c →
        min (rawScore query c / 50) 1 ≤ min (rawScore query v / 50) 1 →
        [mkEntry query vb, mkEntry query c].Sublist
          (sortDescBy (fun e => e.similarity) (preResults query (A ++ vb :: B))))
    ∧ (∀ c : Vendor, c ∈ A → 0 < rawScore query c →
        min (rawScore query c / 50) 1 < min (rawScore query v / 50) 1 →
        [mkEntry query vb, mkEntry query c].Sublist
          (sortDescBy (fun e => e.similarity) (preResults query (A ++ vb :: B)))) := by
  have hlt : rawScore query v < rawScore query vb := by
    rw [hvb]
    exact rawScore_lt_append_reps v hw hk ht
  have hpos : 0 < rawScore query vb := lt_of_le_of_lt (rawScore_nonneg query v) hlt
  have hdecomp := @preResults_append_middle query A B _ hpos
  have hsimvb : (mkEntry query vb).similarity = min (rawScore query vb / 50) 1 := rfl
  refine ⟨hlt, ?_, ?_⟩
  · intro c hcB hcpos hsim
    apply sortDescBy_order
    left
    constructor
    · rw [hdecomp]
      have hcmem : mkEntry query c ∈ preResults query B := mem_preResults_intro hcB hcpos
      exact (List.cons_sublist_cons.2 (List.singleton_sublist.2 hcmem)).trans
        (List.sublist_append_right (preResults query A) _)
    · show (mkEntry query c).similarity ≤ (mkEntry query vb).similarity
      rw [hsimvb]
      exact le_trans hsim (simKey_mono (le_of_lt hlt))
  · intro c hcA hcpos hsim
    apply sortDescBy_order
    right
    refine ⟨?_, ?_, ?_⟩
    · rw [hdecomp]
      exact List.mem_append.2 (Or.inr (List.mem_cons_self _ _))
    · rw [hdecomp]
      exact List.mem_append.2 (Or.inl (mem_preResults_intro hcA hcpos))
    · show (mkEntry query c).similarity < (mkEntry query vb).similarity
      rw [hsimvb]
      exact lt_of_lt_of_le hsim (simKey_mono (le_of_lt hlt))

/-- Witness for C6: boosting vPay's notes with one copy of "pay" keeps it
ahead of the tied later competitor cbPay and ahead of the outranked earlier
competitor caPay. -/
theorem C6_note_spam_strictly_increases_score_witness :
    rawScore (str ("pay")) vPay < rawScore (str ("pay")) vPayBoost
    ∧ [mkEntry (str ("pay")) vPayBoost, mkEntry (str ("pay")) cbPay].Sublist
        (sortDescBy (fun e => e.similarity)
          (preResults (str ("pay")) ([caPay] ++ vPayBoost :: [cbPay])))
    ∧ [mkEntry (str ("pay")) vPayBoost, mkEntry (str ("pay")) caPay].Sublist
        (sortDescBy (fun e => e.similarity)
          (preResults (str ("pay")) ([caPay] ++ vPayBoost :: [cbPay]))) := by
  have hq : queryWords (str ("pay")) = [str ("pay")] := by decide
  have hcv : countOcc (str ("pay")) (lowerStr (vPay.name ++ ' ' :: vPay.notes)) = 1 := by
    decide
  have hcb : countOcc (str ("pay")) (lowerStr (cbPay.name ++ ' ' :: cbPay.notes)) = 1 := by
    decide
  have hca : countOcc (str ("pay")) (lowerStr (caPay.name ++ ' ' :: caPay.notes)) = 1 := by
    decide
  have hrv : rawScore (str ("pay")) vPay = 33 / 2 := by
    rw [rawScore]
    simp +decide [scoreVendor, hq, hcv]
    norm_num
  have hrb : rawScore (str ("pay")) cbPay = 33 / 2 := by
    rw [rawScore]
    simp +decide [scoreVendor, hq, hcb]
    norm_num
  have hra : rawScore (str ("pay")) caPay = 13 / 2 := by
    rw [rawScore]
    simp +decide [scoreVendor, hq, hca]
    norm_num
  have H := C6_note_spam_strictly_increases_score (str ("pay")) [caPay] [cbPay] vPay
    (str ("pay")) (str ("pay")) 1 vPayBoost rfl (by decide) (by decide) (by decide)
  refine ⟨H.1, ?_, ?_⟩
  · apply H.2.1 cbPay (by decide)
    · rw [hrb]
      norm_num
    · rw [hrb, hrv]
  · apply H.2.2 caPay (by decide)
    · rw [hra]
      norm_num
    · rw [hra, hrv]
      rw [min_eq_left (by norm_num : (13 : ℚ) / 2 / 50 ≤ 1),
        min_eq_left (by norm_num : (33 : ℚ) / 2 / 50 ≤ 1)]
      norm_num

/-- Forward characterization of findFirst. -/
theorem findFirst_spec_mp {c : Char} :
    ∀ {l : Str} {i : Nat}, findFirst c l = some i →
      ∃ a b : Str, l = a ++ c :: b ∧ c ∉ a ∧ a.length = i := by
  intro l
  induction l with
  | nil =>
    intro i h
    cases h
  | cons x t ih =>
    intro i h
    by_cases hx : x = c
    · subst hx
      rw [show findFirst x (x :: t) = some 0 from by
        unfold findFirst
        rw [if_pos rfl]] at h
      cases h
      exact ⟨[], t, rfl, by simp, rfl⟩
    · rw [show findFirst c (x :: t) = (findFirst c t).map (· + 1) from by
        simp [findFirst, hx]] at h
      cases hft : findFirst c t with
      | none =>
        rw [hft] at h
        cases h
      | some i2 =>
        rw [hft] at h
        injection h with h
        rcases ih hft with ⟨a, b, h1, h2, h3⟩
        refine ⟨x :: a, b, by rw [h1]; rfl, ?_, by simp [h3, ← h]⟩
        intro hmem
        rcases List.mem_cons.1 hmem with hc | hc
        · exact hx hc.symm
        · exact h2 hc

/-- Backward characterization of findFirst. -/
theorem findFirst_spec_mpr {c : Char} :
    ∀ (a b : Str), c ∉ a → findFirst c (a ++ c :: b) = some a.length := by
  intro a
  induction a with
  | nil =>
    intro b _
    simp [findFirst]
  | cons x a2 ih =>
    intro b hna
    have hx : ¬ x = c := fun hc => hna (by rw [hc]; exact List.mem_cons_self _ _)
    rw [show (x :: a2) ++ c :: b = x :: (a2 ++ c :: b) from rfl]
    rw [show findFirst c (x :: (a2 ++ c :: b))
        = (findFirst c (a2 ++ c :: b)).map (· + 1) from by simp [findFirst, hx]]
    rw [ih b (fun hmem => hna (List.mem_cons_of_mem x hmem))]
    rfl

/-- findLast misses exactly when the character is absent. -/
theorem findLast_eq_none {c : Char} : ∀ {l : Str}, findLast c l = none ↔ c ∉ l := by
  intro l
  induction l with
  | nil => simp [findLast]
  | cons x t ih =>
    constructor
    · intro h
      unfold findLast at h
      cases hft : findLast c t with
      | some j =>
        rw [hft] at h
        cases h
      | none =>
        rw [hft] at h
        simp only [List.mem_cons, not_or]
        refine ⟨?_, ih.1 hft⟩
        intro hc
        rw [if_pos hc.symm] at h
        cases h
    · intro h
      simp only [List.mem_cons, not_or] at h
      unfold findLast
      rw [ih.2 h.2, if_neg (fun hc => h.1 hc.symm)]

/-- Forward characterization of findLast. -/
theorem findLast_spec_mp {c : Char} :
    ∀ {l : Str} {j : Nat}, findLast c l = some j →
      ∃ a b : Str, l = a ++ c :: b ∧ c ∉ b ∧ a.length = j := by
  intro l
  induction l with
  | nil =>
    intro j h
    cases h
  | cons x t ih =>
    intro j h
    unfold findLast at h
    cases hft : findLast c t with
    | some j2 =>
      rw [hft] at h
      simp only [Option.some.injEq] at h
      rcases ih hft with ⟨a, b, h1, h2, h3⟩
      exact ⟨x :: a, b, by rw [h1]; rfl, h2, by simp [h3, ← h]⟩
    | none =>
      rw [hft] at h
      by_cases hx : x = c
      · rw [if_pos hx] at h
        cases h
        exact ⟨[], t, by simp [hx], findLast_eq_none.1 hft, rfl⟩
      · rw [if_neg hx] at h
        cases h

/-- Backward characterization of findLast. -/
theorem findLast_spec_mpr {c : Char} :
    ∀ (a b : Str), c ∉ b → findLast c (a ++ c :: b) = some a.length := by
  intro a
  induction a with
  | nil =>
    intro b hnb
    show findLast c (c :: b) = some 0
    unfold findLast
    rw [findLast_eq_none.2 hnb, if_pos rfl]
  | cons x a2 ih =>
    intro b hnb
    show findLast c (x :: (a2 ++ c :: b)) = some (a2.length + 1)
    unfold findLast
    rw [ih b hnb]

/-- The span sliced between the borders of the middle segment is the
segment. -/
theorem span_slice (a seg d : Str) :
    ((a ++ seg ++ d).drop a.length).take seg.length = seg := by
  rw [List.append_assoc, List.drop_left, List.take_left]

/-- Overlap of a first-occurrence decomposition and a later last-occurrence
decomposition of the same list. -/
theorem split_between {l a b a2 b2 : Str} {x y : Char}
    (hx : l = a ++ x :: b) (hy : l = a2 ++ y :: b2) (hlen : a.length < a2.length) :
    ∃ m : Str, a2 = a ++ x :: m ∧ b = m ++ y :: b2 := by
  subst hx
  have hfront : a = a2.take a.length := by
    have h := congrArg (List.take a.length) hy
    rw [List.take_left, List.take_append_eq_append_take,
      Nat.sub_eq_zero_of_le (le_of_lt hlen), List.take_zero, List.append_nil] at h
    exact h
  have hback := congrArg (List.drop a.length) hy
  rw [List.drop_left, List.drop_append_eq_append_drop,
    Nat.sub_eq_zero_of_le (le_of_lt hlen), List.drop_zero] at hback
  cases hd : a2.drop a.length with
  | nil =>
    exfalso
    have := congrArg List.length hd
    simp only [List.length_drop, List.length_nil] at this
    omega
  | cons z m =>
    rw [hd] at hback
    have hxz : x = z ∧ b = m ++ y :: b2 := by
      rw [show (z :: m) ++ y :: b2 = z :: (m ++ y :: b2) from rfl] at hback
      exact ⟨(List.cons.injEq _ _ _ _ ▸ hback).1, (List.cons.injEq _ _ _ _ ▸ hback).2⟩
    refine ⟨m, ?_, hxz.2⟩
    have : a2 = a2.take a.length ++ a2.drop a.length := (List.take_append_drop _ _).symm
    rw [this, hd, ← hfront, ← hxz.1]

/-- C7: the tool-call parser yields a parsed object exactly when the stripped
response decomposes around the span running from its first opening brace to
its last closing brace (with the closer strictly after the opener), the
decoder succeeds on exactly that span, and the decoded object carries both a
tool_name and an arguments key; any decode failure, missing key, or absence of
such a span yields no tool call, so the response is treated as the final
answer. -/
theorem C7_parse_tool_call_iff (decode : Str → Option JObj) (content : Str) (obj : JObj) :
    parse_tool_call decode content = some obj
      ↔ ∃ a m d : Str,
          strip content = a ++ (lbrace :: m ++ [rbrace]) ++ d
          ∧ lbrace ∉ a ∧ rbrace ∉ d
          ∧ decode (lbrace :: m ++ [rbrace]) = some obj
          ∧ (getVal obj (str ("tool_name"))).isSome = true
          ∧ (getVal obj (str ("arguments"))).isSome = true := by
  unfold parse_tool_call
  constructor
  · intro h
    cases hf : findFirst lbrace (strip content) with
    | none =>
      rw [hf] at h
      cases h
    | some i =>
      cases hl : findLast rbrace (strip content) with
      | none =>
        rw [hf, hl] at h
        cases h
      | some j =>
        rw [hf, hl] at h
        simp only [] at h
        by_cases hij : i < j
        · rw [if_pos hij] at h
          rcases findFirst_spec_mp hf with ⟨a, b, hab, hna, hia⟩
          rcases findLast_spec_mp hl with ⟨a2, b2, hab2, hnb2, hja⟩
          rcases split_between hab hab2 (by omega) with ⟨m, hm1, hm2⟩
          have hl2 : strip content = a ++ (lbrace :: m ++ [rbrace]) ++ b2 := by
            rw [hab, hm2]
            simp
          have hslice : ((strip content).drop i).take (j + 1 - i)
              = lbrace :: m ++ [rbrace] := by
            have hlen2 : j + 1 - i = (lbrace :: m ++ [rbrace]).length := by
              have hja2 : j = a.length + m.length + 1 := by
                rw [← hja, hm1]
                simp
                omega
              simp only [List.length_cons, List.length_append, List.length_cons,
                List.length_nil]
              omega
            rw [hl2, hlen2, ← hia]
            exact span_slice a _ b2
          rw [hslice] at h
          cases hd : decode (lbrace :: m ++ [rbrace]) with
          | none =>
            rw [hd] at h
            cases h
          | some pj =>
            rw [hd] at h
            simp only [] at h
            by_cases hkeys : ((getVal pj (str ("tool_name"))).isSome
                && (getVal pj (str ("arguments"))).isSome) = true
            · rw [if_pos hkeys] at h
              have hpj : pj = obj := Option.some.inj h
              subst hpj
              rw [Bool.and_eq_true] at hkeys
              exact ⟨a, m, b2, hl2, hna, hnb2, hd, hkeys.1, hkeys.2⟩
            · rw [if_neg hkeys] at h
              cases h
        · rw [if_neg hij] at h
          cases h
  · rintro ⟨a, m, d, hdecomp, hna, hnd, hdec, hk1, hk2⟩
    have hf : findFirst lbrace (strip content) = some a.length := by
      rw [hdecomp,
        show a ++ (lbrace :: m ++ [rbrace]) ++ d = a ++ lbrace :: (m ++ [rbrace] ++ d) from
          by simp]
      exact findFirst_spec_mpr a _ hna
    have hl : findLast rbrace (strip content) = some (a.length + m.length + 1) := by
      rw [hdecomp,
        show a ++ (lbrace :: m ++ [rbrace]) ++ d
            = (a ++ lbrace :: m) ++ rbrace :: d from by simp]
      have h2 := findLast_spec_mpr (a ++ lbrace :: m) d hnd
      rwa [show (a ++ lbrace :: m).length = a.length + m.length + 1 from by
        simp only [List.length_append, List.length_cons]
        omega] at h2
    rw [hf, hl]
    simp only []
    rw [if_pos (by omega)]
    have hslice : ((strip content).drop a.length).take
        (a.length + m.length + 1 + 1 - a.length) = lbrace :: m ++ [rbrace] := by
      have hlen2 : a.length + m.length + 1 + 1 - a.length
          = (lbrace :: m ++ [rbrace]).length := by
        simp only [List.length_cons, List.length_append, List.length_nil]
        omega
      rw [hdecomp, hlen2]
      exact span_slice a _ d
    rw [hslice, hdec]
    simp only []
    rw [if_pos (by rw [Bool.and_eq_true]; exact ⟨hk1, hk2⟩)]

end RagPoison
